import Mathlib

/-!
# Verification of the sparse-voxel-octree builder of `wender`

Shallow embedding of `src/voxels.rs`: the occupancy-pyramid / sparse-node-array
builder `Voxels::build_svo`, and the model loader `compute_dotvox_model` /
`Voxels::new`.

Modelling conventions:
* `ndarray::Array3<u32>` (cubic, standard layout) is a `Grid`: a side length
  plus a cell function `ℕ → ℕ → ℕ → ℕ`; cell values are the `u32` contents
  (only values below `2^32` arise from the loader, and all tests in the
  builder are zero/nonzero tests, so cells are plain naturals).
* row-major ("logical") iteration order of `ndarray` — `z` varies fastest —
  is materialised by `Grid.flat`; `exact_chunks((2,2,2))` by `Grid.chunks`
  (both enumerate row-major, exactly as `ndarray` does; `exact_chunks`
  ignores any remainder when the side is odd).
* the `u32` pointer counter `ptr` wraps modulo `2^32`; `assignPtrs` keeps the
  explicit `% 2^32`.  Theorems that need wrap-freedom carry the hypothesis
  that the counter stays below `2^32`.
* `u32::ilog2`/`usize::ilog2` is `ilog2` below, written with structural fuel
  so that it evaluates inside the kernel; it panics (in Rust) only on `0`,
  which is modelled where it matters (`buildSvoOpt`, `maxDimOf`).
-/

namespace Wender

/-- Floor base-2 logarithm, fuel-structured so the kernel can evaluate it.
`ilog2Aux fuel n` computes `⌊log₂ n⌋` whenever `n ≤ fuel`. -/
def ilog2Aux : ℕ → ℕ → ℕ
  | 0, _ => 0
  | fuel + 1, n => if 2 ≤ n then ilog2Aux fuel (n / 2) + 1 else 0

/-- `u32::ilog2` / `usize::ilog2`: floor base-2 logarithm (Rust panics on `0`;
callers model that case separately). -/
def ilog2 (n : ℕ) : ℕ := ilog2Aux n n

/-! ## The dense cubic volume (`ndarray::Array3<u32>`) -/

/-- A cubic `Array3<u32>` of side `n`: cell `(x, y, z)` (with `x, y, z < n`)
holds `f x y z`.  Row-major logical order: `z` varies fastest. -/
structure Grid where
  n : ℕ
  f : ℕ → ℕ → ℕ → ℕ

instance : Inhabited Grid := ⟨⟨0, fun _ _ _ => 0⟩⟩

/-- Row-major flat index of cell `(x, y, z)` in a side-`n` cube. -/
def encode (n x y z : ℕ) : ℕ := (x * n + y) * n + z

/-- The cells of `g` in row-major (ndarray logical) order, as produced by
`iter()` / `iter_mut()` on a standard-layout `Array3`. -/
def Grid.flat (g : Grid) : List ℕ :=
  (List.range (g.n * g.n * g.n)).map
    (fun t => g.f (t / (g.n * g.n)) (t / g.n % g.n) (t % g.n))

/-- Rebuild a grid of side `n` from a row-major cell list (used to model
in-place mutation of an `Array3` through its `iter_mut()` sequence). -/
def Grid.ofList (n : ℕ) (l : List ℕ) : Grid :=
  ⟨n, fun x y z => l.getD (encode n x y z) 0⟩

/-- The `2×2×2` block of `g` whose chunk index is `(i, j, l)`, listed in
row-major order — exactly the order `o[(0,0,0)], o[(0,0,1)], o[(0,1,0)],
o[(0,1,1)], o[(1,0,0)], o[(1,0,1)], o[(1,1,0)], o[(1,1,1)]` used at
`voxels.rs:227-236`. -/
def chunkAt (g : Grid) (i j l : ℕ) : List ℕ :=
  [g.f (2*i) (2*j) (2*l),   g.f (2*i) (2*j) (2*l+1),
   g.f (2*i) (2*j+1) (2*l), g.f (2*i) (2*j+1) (2*l+1),
   g.f (2*i+1) (2*j) (2*l),   g.f (2*i+1) (2*j) (2*l+1),
   g.f (2*i+1) (2*j+1) (2*l), g.f (2*i+1) (2*j+1) (2*l+1)]

/-- `g.exact_chunks((2,2,2))` in row-major chunk order; a trailing odd layer
is ignored, as `ndarray`'s `exact_chunks` does. -/
def Grid.chunks (g : Grid) : List (List ℕ) :=
  (List.range (g.n / 2 * (g.n / 2) * (g.n / 2))).map
    (fun t => chunkAt g (t / (g.n / 2 * (g.n / 2))) (t / (g.n / 2) % (g.n / 2)) (t % (g.n / 2)))

/-- `o.iter().any(|v| *v != 0)` on a chunk. -/
def chunkOcc (c : List ℕ) : Bool := c.any (fun v => v != 0)

/-- One reduction pass of `build_svo` (voxels.rs:159-160):
`Zip::from(prev.exact_chunks((2,2,2))).par_map_collect(|o| o.iter().any(|v| *v != 0) as u32)`.
The result has side `n / 2`; cell `(i,j,l)` is `1` iff any of the 8 cells of
chunk `(i,j,l)` of the previous level is nonzero. -/
def reduceLevel (g : Grid) : Grid :=
  ⟨g.n / 2, fun i j l => if chunkOcc (chunkAt g i j l) then 1 else 0⟩

/-- Level `i` of the occupancy pyramid over volume `v` (level 0 is the raw
volume itself). -/
def level (v : Grid) (i : ℕ) : Grid := reduceLevel^[i] v

/-- Number of nonzero cells of level `i` (row-major count). -/
def cnt (v : Grid) (i : ℕ) : ℕ := (level v i).flat.countP (fun o => o != 0)

/-- `levels`: the `Vec` of pyramid levels built at voxels.rs:154-162 —
`[voxels.clone()]` followed by one reduction per `n in 1..svo_depth`. -/
def svoLevels (v : Grid) : List Grid :=
  v :: (List.range (ilog2 v.n - 1)).map (fun i => reduceLevel^[i + 1] v)

/-! ## The flat node array -/

/-- `SvoNode { octants: [u32; 8] }` (voxels.rs:23-25); the 8 slots in
row-major order. -/
structure SvoNode where
  octants : List ℕ
deriving DecidableEq, Repr

instance : Inhabited SvoNode := ⟨⟨List.replicate 8 0⟩⟩

/-- The 13 fixed nodes pre-pushed into the output vector (voxels.rs:178-218):
node `i` (0-based) has all 8 octants equal to `i + 1`. -/
def placeholders : List SvoNode :=
  (List.range 13).map (fun i => ⟨List.replicate 8 (i + 1)⟩)

/-- The pointer-assignment loop body (voxels.rs:170-173):
`l.iter_mut().filter(|o| **o != 0).for_each(|o| { ptr += 1; *o = ptr; })`
over one level's row-major cell sequence.  `ptr` is a `u32`, hence the
`% 2^32`.  Returns the final counter and the mutated cell sequence. -/
def assignPtrs : ℕ → List ℕ → ℕ × List ℕ
  | p, [] => (p, [])
  | p, o :: rest =>
    if o ≠ 0 then
      let q := (p + 1) % 4294967296
      let r := assignPtrs q rest
      (r.1, q :: r.2)
    else
      let r := assignPtrs p rest
      (r.1, o :: r.2)

/-- Mutate one level in place through its row-major cell sequence. -/
def assignGrid (p : ℕ) (g : Grid) : ℕ × Grid :=
  let r := assignPtrs p g.flat
  (r.1, Grid.ofList g.n r.2)

/-- The whole pointer pass (voxels.rs:169-174) over a list of levels
(already reversed and truncated by the caller), threading the counter. -/
def assignLevels : ℕ → List Grid → ℕ × List Grid
  | p, [] => (p, [])
  | p, g :: gs =>
    let r := assignGrid p g
    let s := assignLevels r.1 gs
    (s.1, r.2 :: s.2)

/-- The node-emission pass for one level (voxels.rs:221-240): one `SvoNode`
per `2×2×2` chunk that has at least one nonzero cell, in row-major chunk
order; the node's octants are the chunk's (possibly pointer-mutated) cells. -/
def nodesOfLevel (g : Grid) : List SvoNode :=
  (g.chunks.filter chunkOcc).map SvoNode.mk

/-- `Voxels::build_svo` (voxels.rs:150-245).
`svo_depth = voxels.dim().0.ilog2()`; the levels are reduced, the pointer
pass mutates all levels except the finest (`rev().take(svo_depth - 1)`),
13 placeholder nodes are pre-pushed, and every level — coarsest first —
emits one node per non-empty chunk. -/
def buildSvo (v : Grid) : List SvoNode :=
  let depth := ilog2 v.n
  let revLevels := (svoLevels v).reverse
  let mutated := (assignLevels 13 (revLevels.take (depth - 1))).2
      ++ revLevels.drop (depth - 1)
  placeholders ++ mutated.flatMap nodesOfLevel

/-- `build_svo` with its one genuine panic site made explicit: `ilog2` (i.e.
`usize::ilog2`) panics when the volume side is `0`.  There is no other check:
in particular there is *no* power-of-two assertion. -/
def buildSvoOpt (v : Grid) : Option (List SvoNode) :=
  if v.n = 0 then none else some (buildSvo v)

/-! ## Index bookkeeping for the emitted node array

The following definitions name positions inside the array returned by
`buildSvo`; they are used to state (and prove) where each emitted node lands
and what its slots hold. -/

/-- Start index, in the array returned by `buildSvo`, of the nodes emitted
for the `j`-th level processed by the emission pass (levels are processed
coarsest-first, so `j = 0` is the coarsest level `ilog2 n - 1`). -/
def blockStart (v : Grid) (j : ℕ) : ℕ :=
  13 + ((List.range j).map (fun t => cnt v (ilog2 v.n - t))).sum

/-- Rank of chunk `(a,b,c)` of level `i` among the occupied chunks of that
level, in row-major chunk order. -/
def chunkRank (v : Grid) (i a b c : ℕ) : ℕ :=
  (((level v i).chunks).take (encode ((level v i).n / 2) a b c)).countP chunkOcc

/-- The index, in the array returned by `buildSvo`, of the node emitted for
occupied chunk `(a,b,c)` of level `i`. -/
def nodeIdx (v : Grid) (i a b c : ℕ) : ℕ :=
  blockStart v (ilog2 v.n - 1 - i) + chunkRank v i a b c

/-- The value held by the slot of a level-`i` node that corresponds to cell
`(x,y,z)` of level `i`: `0` for an unoccupied cell; the raw material value
for a leaf node (`i = 0`); the index of the child's node record otherwise. -/
def slotVal (v : Grid) (i x y z : ℕ) : ℕ :=
  if (level v i).f x y z = 0 then 0
  else if i = 0 then v.f x y z
  else nodeIdx v (i - 1) x y z

/-- The node record that `buildSvo` emits for occupied chunk `(a,b,c)` of
level `i`: its 8 slots are the `slotVal`s of the 8 cells of the chunk, in
row-major order. -/
def expectedNode (v : Grid) (i a b c : ℕ) : SvoNode :=
  ⟨[slotVal v i (2*a) (2*b) (2*c),   slotVal v i (2*a) (2*b) (2*c+1),
    slotVal v i (2*a) (2*b+1) (2*c), slotVal v i (2*a) (2*b+1) (2*c+1),
    slotVal v i (2*a+1) (2*b) (2*c),   slotVal v i (2*a+1) (2*b) (2*c+1),
    slotVal v i (2*a+1) (2*b+1) (2*c), slotVal v i (2*a+1) (2*b+1) (2*c+1)]⟩

/-- Total number of pointers handed out by the pointer pass: the number of
occupied cells summed over levels `1 .. svo_depth - 1`. -/
def totalPtrs (v : Grid) : ℕ :=
  ((List.range (ilog2 v.n - 1)).map (fun j => cnt v (j + 1))).sum

/-! ## Some concrete volumes (used as witnesses and counterexamples) -/

/-- An all-empty `2×2×2` volume. -/
def empty2 : Grid := ⟨2, fun _ _ _ => 0⟩

/-- An all-empty `4×4×4` volume. -/
def empty4 : Grid := ⟨4, fun _ _ _ => 0⟩

/-- A `2×2×2` volume with a single occupied voxel of material `1`. -/
def one2 : Grid := ⟨2, fun x y z => if x = 0 ∧ y = 0 ∧ z = 0 then 1 else 0⟩

/-- A `2×2×2` volume with a single occupied voxel of material `100`. -/
def big2 : Grid := ⟨2, fun x y z => if x = 0 ∧ y = 0 ∧ z = 0 then 100 else 0⟩

/-- A `4×4×4` volume with a single occupied voxel of material `7`. -/
def one4 : Grid := ⟨4, fun x y z => if x = 0 ∧ y = 0 ∧ z = 0 then 7 else 0⟩

/-- A fully occupied `3×3×3` volume (side not a power of two). -/
def vol3 : Grid := ⟨3, fun _ _ _ => 1⟩

/-- A fully occupied `4×4×4` volume. -/
def full4 : Grid := ⟨4, fun _ _ _ => 1⟩

/-! ## C5: the all-empty volume -/

/-- `allZero g`: every in-range cell of `g` is `0`. -/
def allZero (g : Grid) : Prop :=
  ∀ x y z, x < g.n → y < g.n → z < g.n → g.f x y z = 0

/-! ## The model loader: `compute_dotvox_model` and `Voxels::new`
(voxels.rs:36-148)

The recursive scene-graph walk (`process_node`) only collects the list of
`(model, translation)` pairs; the claims are about what happens to that
list, so the embedding starts from it. -/

/-- One voxel entry of a model: local position (`u8` each) and palette
index `i` (`u8`). -/
structure VoxEntry where
  x : ℕ
  y : ℕ
  z : ℕ
  i : ℕ
deriving DecidableEq, Repr

/-- One model part as collected at voxels.rs:79-89: the model's integer size
(`u32` per axis), its voxel entries, and the accumulated scene translation
`tr` (`i32` per axis). -/
structure Part where
  sizeX : ℕ
  sizeY : ℕ
  sizeZ : ℕ
  voxels : List VoxEntry
  trX : ℤ
  trY : ℤ
  trZ : ℤ
deriving DecidableEq, Repr

/-- `size + tr` of one part, per axis (voxels.rs:93-96). -/
def partExtent (p : Part) : ℤ × ℤ × ℤ :=
  ((p.sizeX : ℤ) + p.trX, (p.sizeY : ℤ) + p.trY, (p.sizeZ : ℤ) + p.trZ)

/-- `glm::max2`: componentwise maximum. -/
def max2 (a b : ℤ × ℤ × ℤ) : ℤ × ℤ × ℤ :=
  (max a.1 b.1, max a.2.1 b.2.1, max a.2.2 b.2.2)

/-- The bounding extent `models.iter().map(|(m,tr)| size + tr).reduce(max2)`
of voxels.rs:91-98.  `reduce` on an empty iterator yields `None` and the
subsequent `.unwrap()` panics; that case is `none`. -/
def modelExtent : List Part → Option (ℤ × ℤ × ℤ)
  | [] => none
  | p :: ps => some (ps.foldl (fun acc q => max2 acc (partExtent q)) (partExtent p))

/-- `let max_dim = 2 << dim.max().ilog2()` (voxels.rs:101).  `i32::ilog2`
panics on a non-positive argument (`none`); otherwise the side is
`2 * 2^(ilog2 m)` — the smallest power of two *strictly greater* than the
largest axis `m`.  (The `i32` overflow of `2 << 30` for extents `≥ 2^30`,
and the impossible allocation it would imply, are outside the model.) -/
def maxDimOf (e : ℤ × ℤ × ℤ) : Option ℕ :=
  let m := max e.1 (max e.2.1 e.2.2)
  if m ≤ 0 then none else some (2 * 2 ^ ilog2 m.toNat)

/-- The write sequence of voxels.rs:107-115 in iteration order: for each
part, for each voxel entry `v`, write `v.i + 1` at position
`(v.x + tr.x, v.z + tr.z, v.y + tr.y)` — the fixed axis swap: the second
engine axis receives the model's `z`, the third the model's `y`. -/
def writesOf (parts : List Part) : List ((ℤ × ℤ × ℤ) × ℕ) :=
  parts.flatMap (fun p => p.voxels.map
    (fun v => (((v.x : ℤ) + p.trX, (v.z : ℤ) + p.trZ, (v.y : ℤ) + p.trY), v.i + 1)))

/-- Execute a write sequence on the zero-initialised `dim³` volume
(`Array3::zeros`, voxels.rs:105). -/
def applyWrites (ws : List ((ℤ × ℤ × ℤ) × ℕ)) : (ℤ × ℤ × ℤ) → ℕ :=
  ws.foldl (fun vol w => fun q => if q = w.1 then w.2 else vol q) (fun _ => 0)

/-- A write position is representable as an in-bounds `usize` triple: the
`as usize` casts at voxels.rs:109-112 make any negative coordinate wrap to
a huge index, and `ndarray` panics on any index outside `[0, d)`. -/
def inBounds (d : ℕ) (q : ℤ × ℤ × ℤ) : Bool :=
  decide (0 ≤ q.1) && decide (q.1 < (d : ℤ)) &&
  decide (0 ≤ q.2.1) && decide (q.2.1 < (d : ℤ)) &&
  decide (0 ≤ q.2.2) && decide (q.2.2 < (d : ℤ))

/-- `compute_dotvox_model` (voxels.rs:36-118) from the collected part list.
`none` models a panic: the `.unwrap()` at voxels.rs:98 on an empty part
list, `i32::ilog2` on a non-positive largest axis, or an out-of-bounds
index in the write loop. -/
def computeDotvoxModel (parts : List Part) : Option (ℕ × ((ℤ × ℤ × ℤ) → ℕ)) :=
  match modelExtent parts with
  | none => none
  | some e =>
    match maxDimOf e with
    | none => none
    | some d =>
      if (writesOf parts).all (fun w => inBounds d w.1) then
        some (d, applyWrites (writesOf parts))
      else none

/-- Semantic outcome of a Rust call: a normal return, a `Result::Err` value
surfaced to the caller, or a panic/abort. -/
inductive LoadOutcome (α : Type) where
  | ok : α → LoadOutcome α
  | err : String → LoadOutcome α
  | panic : String → LoadOutcome α
deriving DecidableEq

/-- Is the outcome an error *value* handed back to the caller? -/
def LoadOutcome.isErr {α : Type} : LoadOutcome α → Bool
  | .err _ => true
  | _ => false

/-- Is the outcome a panic? -/
def LoadOutcome.isPanic {α : Type} : LoadOutcome α → Bool
  | .panic _ => true
  | _ => false

/-- `Voxels::new` (voxels.rs:121-148), reduced to its failure behaviour.
The input is the result of `dot_vox::load` (`none` = missing or corrupt
file), already reduced to the collected part list.  The Rust signature is
`fn new() -> Self`: there is no error channel at all; a bad file hits the
`expect` at voxels.rs:123 and an empty part list hits the `unwrap` inside
`compute_dotvox_model` — both are panics, never error values. -/
def voxelsNew (loaded : Option (List Part)) : LoadOutcome (ℕ × ((ℤ × ℤ × ℤ) → ℕ)) :=
  match loaded with
  | none => .panic ("failed to load magicvoxel asset")
  | some parts =>
    match computeDotvoxModel parts with
    | none => .panic ("compute_dotvox_model: unwrap / ilog2 / index panic")
    | some vol => .ok vol

/-- A one-part, one-voxel model: size `(2,2,2)`, translation `(1,2,3)`, a
single voxel at local `(0,1,0)` with palette index `4`. -/
def part1 : Part := ⟨2, 2, 2, [⟨0, 1, 0, 4⟩], 1, 2, 3⟩

/-- A single part of size `(8,8,8)` at the origin: its largest extent `8` is
already a power of two. -/
def part8 : Part := ⟨8, 8, 8, [], 0, 0, 0⟩

/-- Modelled from the spec: "round the largest axis up to the next power of
two" — the least power of two greater than or equal to the axis. -/
def specRoundUpPow2 (n : ℕ) : ℕ := 2 ^ Nat.clog 2 n

/-! ## Named intermediate objects of the `build_svo` passes

These definitions give closed forms for the state of the algorithm; the
theorems below prove that `buildSvo` realises them. -/

/-- Number of nonzero cells of a grid (row-major count). -/
def cntG (g : Grid) : ℕ := g.flat.countP (fun o => o != 0)

/-- The value of the pointer counter `ptr` when the pointer pass reaches the
`d`-th level it processes (`d = 0` is the coarsest level, where `ptr = 13`):
each earlier level advanced the counter by its occupied-cell count. -/
def baseAux (v : Grid) : ℕ → ℕ
  | 0 => 13
  | d + 1 => baseAux v d + cnt v (ilog2 v.n - 1 - d)

/-- The `j`-th level processed by the pointer pass (`j = 0` is the coarsest,
level `svo_depth - 1`), after its cells have been overwritten with pointers. -/
def mutatedLevel (v : Grid) (j : ℕ) : Grid :=
  (assignGrid (baseAux v j) (level v (ilog2 v.n - 1 - j))).2

/-- The list of grids the emission pass runs over, coarsest first: the
pointer-mutated levels followed by the untouched finest level. -/
def svoGrids (v : Grid) : List Grid :=
  (assignLevels 13 ((svoLevels v).reverse.take (ilog2 v.n - 1))).2
    ++ (svoLevels v).reverse.drop (ilog2 v.n - 1)

/-! ## Theorems -/

theorem ilog2Aux_spec : ∀ fuel n, 1 ≤ n → n ≤ fuel →
    2 ^ ilog2Aux fuel n ≤ n ∧ n < 2 ^ (ilog2Aux fuel n + 1) := by
  intro fuel
  induction fuel with
  | zero => intro n h1 h2; omega
  | succ f ih =>
    intro n h1 h2
    by_cases h : 2 ≤ n
    · have hd1 : 1 ≤ n / 2 := by omega
      have hd2 : n / 2 ≤ f := by omega
      have := ih (n / 2) hd1 hd2
      simp only [ilog2Aux, if_pos h]
      constructor
      · have : 2 ^ (ilog2Aux f (n / 2)) ≤ n / 2 := this.1
        calc 2 ^ (ilog2Aux f (n / 2) + 1) = 2 * 2 ^ (ilog2Aux f (n / 2)) := by ring
        _ ≤ 2 * (n / 2) := by omega
        _ ≤ n := by omega
      · have h2' : n / 2 < 2 ^ (ilog2Aux f (n / 2) + 1) := this.2
        have : n < 2 ^ (ilog2Aux f (n / 2) + 1 + 1) := by
          have : 2 ^ (ilog2Aux f (n / 2) + 1 + 1) = 2 * 2 ^ (ilog2Aux f (n / 2) + 1) := by ring
          omega
        simpa using this
    · simp only [ilog2Aux, if_neg h]
      omega

theorem ilog2_spec (n : ℕ) (h : 1 ≤ n) :
    2 ^ ilog2 n ≤ n ∧ n < 2 ^ (ilog2 n + 1) :=
  ilog2Aux_spec n n h le_rfl

theorem ilog2_eq_of {n a : ℕ} (h1 : 2 ^ a ≤ n) (h2 : n < 2 ^ (a + 1)) :
    ilog2 n = a := by
  have hn : 1 ≤ n := le_trans (Nat.one_le_two_pow) h1
  obtain ⟨c1, c2⟩ := ilog2_spec n hn
  have ha : ilog2 n < a + 1 := by
    have := lt_of_le_of_lt c1 h2
    exact (Nat.pow_lt_pow_iff_right (by omega)).mp this
  have hb : a < ilog2 n + 1 := by
    have := lt_of_le_of_lt h1 c2
    exact (Nat.pow_lt_pow_iff_right (by omega)).mp this
  omega

theorem ilog2_two_pow (k : ℕ) : ilog2 (2 ^ k) = k :=
  ilog2_eq_of le_rfl (Nat.pow_lt_pow_right (by omega) (by omega))

/-! ## Basic indexing lemmas -/

theorem getD_map_range {α : Type} (f : ℕ → α) (N t : ℕ) (d : α) (ht : t < N) :
    ((List.range N).map f).getD t d = f t := by
  rw [List.getD_eq_getElem?_getD, List.getElem?_map, List.getElem?_range ht]
  rfl

theorem encode_lt {n x y z : ℕ} (hx : x < n) (hy : y < n) (hz : z < n) :
    encode n x y z < n * n * n := by
  unfold encode
  have h1 : x * n + y + 1 ≤ n * n := by
    calc x * n + y + 1 ≤ x * n + n := by omega
    _ = (x + 1) * n := by ring
    _ ≤ n * n := Nat.mul_le_mul_right n hx
  calc (x * n + y) * n + z < (x * n + y + 1) * n := by
        have : (x * n + y + 1) * n = (x * n + y) * n + n := by ring
        omega
  _ ≤ n * n * n := Nat.mul_le_mul_right n h1

theorem decode_encode {n x y z : ℕ} (hy : y < n) (hz : z < n) :
    encode n x y z / (n * n) = x ∧
    encode n x y z / n % n = y ∧ encode n x y z % n = z := by
  have hn : 0 < n := by omega
  have hdiv : encode n x y z / n = x * n + y := by
    unfold encode
    rw [Nat.add_comm, Nat.add_mul_div_right _ _ hn, Nat.div_eq_of_lt hz, Nat.zero_add]
  refine ⟨?_, ?_, ?_⟩
  · rw [← Nat.div_div_eq_div_mul, hdiv, Nat.mul_comm x n, Nat.mul_add_div hn,
      Nat.div_eq_of_lt hy, Nat.add_zero]
  · rw [hdiv, Nat.mul_comm x n, Nat.mul_add_mod, Nat.mod_eq_of_lt hy]
  · unfold encode
    rw [Nat.mul_comm (x * n + y) n, Nat.mul_add_mod, Nat.mod_eq_of_lt hz]

theorem Grid.flat_length (g : Grid) : g.flat.length = g.n * g.n * g.n := by
  simp [Grid.flat]

theorem Grid.flat_getD (g : Grid) {x y z : ℕ}
    (hx : x < g.n) (hy : y < g.n) (hz : z < g.n) :
    g.flat.getD (encode g.n x y z) 0 = g.f x y z := by
  unfold Grid.flat
  rw [getD_map_range _ _ _ _ (encode_lt hx hy hz)]
  obtain ⟨d1, d2, d3⟩ := decode_encode (n := g.n) (x := x) hy hz
  rw [d1, d2, d3]

theorem Grid.chunks_length (g : Grid) :
    g.chunks.length = g.n / 2 * (g.n / 2) * (g.n / 2) := by
  simp [Grid.chunks]

theorem Grid.chunks_getD (g : Grid) {a b c : ℕ} (d : List ℕ)
    (ha : a < g.n / 2) (hb : b < g.n / 2) (hc : c < g.n / 2) :
    g.chunks.getD (encode (g.n / 2) a b c) d = chunkAt g a b c := by
  unfold Grid.chunks
  rw [getD_map_range _ _ _ _ (encode_lt ha hb hc)]
  obtain ⟨d1, d2, d3⟩ := decode_encode (n := g.n / 2) (x := a) hb hc
  rw [d1, d2, d3]

/-! ## Levels -/

theorem level_zero (v : Grid) : level v 0 = v := rfl

theorem level_succ (v : Grid) (i : ℕ) :
    level v (i + 1) = reduceLevel (level v i) :=
  Function.iterate_succ_apply' reduceLevel i v

theorem level_n (v : Grid) (i : ℕ) : (level v i).n = v.n / 2 ^ i := by
  induction i with
  | zero => simp [level]
  | succ i ih =>
    rw [level_succ]
    show (level v i).n / 2 = _
    rw [ih, Nat.div_div_eq_div_mul, pow_succ]

theorem level_n_pow {v : Grid} {k : ℕ} (hn : v.n = 2 ^ k) {i : ℕ} (hi : i ≤ k) :
    (level v i).n = 2 ^ (k - i) := by
  rw [level_n, hn, Nat.pow_div hi (by omega)]

theorem reduceLevel_flat (g : Grid) :
    (reduceLevel g).flat = g.chunks.map (fun c => if chunkOcc c then 1 else 0) := by
  unfold Grid.flat Grid.chunks
  rw [List.map_map]
  rfl

theorem cnt_succ (v : Grid) (i : ℕ) :
    cnt v (i + 1) = ((level v i).chunks).countP chunkOcc := by
  unfold cnt
  rw [level_succ, reduceLevel_flat, List.countP_map]
  apply List.countP_congr
  intro c _
  by_cases h : chunkOcc c <;> simp [h]

theorem chunkOcc_iff (g : Grid) (a b c : ℕ) :
    chunkOcc (chunkAt g a b c) = true ↔
    ∃ dx dy dz, dx < 2 ∧ dy < 2 ∧ dz < 2 ∧
      g.f (2*a+dx) (2*b+dy) (2*c+dz) ≠ 0 := by
  constructor
  · intro h
    simp only [chunkOcc, chunkAt, List.any_eq_true, List.mem_cons,
      List.not_mem_nil, or_false, bne_iff_ne, ne_eq] at h
    obtain ⟨x, hx, hne⟩ := h
    rcases hx with h|h|h|h|h|h|h|h <;> subst h
    · exact ⟨0, 0, 0, by omega, by omega, by omega, by simpa using hne⟩
    · exact ⟨0, 0, 1, by omega, by omega, by omega, by simpa using hne⟩
    · exact ⟨0, 1, 0, by omega, by omega, by omega, by simpa using hne⟩
    · exact ⟨0, 1, 1, by omega, by omega, by omega, by simpa using hne⟩
    · exact ⟨1, 0, 0, by omega, by omega, by omega, by simpa using hne⟩
    · exact ⟨1, 0, 1, by omega, by omega, by omega, by simpa using hne⟩
    · exact ⟨1, 1, 0, by omega, by omega, by omega, by simpa using hne⟩
    · exact ⟨1, 1, 1, by omega, by omega, by omega, by simpa using hne⟩
  · rintro ⟨dx, dy, dz, hdx, hdy, hdz, h⟩
    simp only [chunkOcc]
    refine List.any_eq_true.mpr ⟨g.f (2*a+dx) (2*b+dy) (2*c+dz), ?_, by simpa using h⟩
    interval_cases dx <;> interval_cases dy <;> interval_cases dz <;> simp [chunkAt]

theorem svoLevels_eq {v : Grid} {k : ℕ} (hn : v.n = 2 ^ k) (hk : 1 ≤ k) :
    svoLevels v = (List.range k).map (level v) := by
  unfold svoLevels
  rw [hn, ilog2_two_pow]
  obtain ⟨j, rfl⟩ : ∃ j, k = j + 1 := ⟨k - 1, by omega⟩
  rw [List.range_succ_eq_map]
  simp only [Nat.add_sub_cancel, List.map_cons, List.map_map]
  rfl

theorem svoLevels_mem {v : Grid} {g : Grid} (hg : g ∈ svoLevels v) :
    ∃ i, g = level v i := by
  unfold svoLevels at hg
  rcases List.mem_cons.mp hg with h | h
  · exact ⟨0, h⟩
  · obtain ⟨i, _, rfl⟩ := List.mem_map.mp h
    exact ⟨i + 1, rfl⟩

/-! ## C2: each level is the 8-way OR reduction of the previous one -/

/-- C2 — For a volume of side `2^k`: level 0 of the pyramid is the raw volume
(a cell is occupied, i.e. nonzero, exactly when the material value is
nonzero), and every cell of level `n` (`1 ≤ n < k`) is occupied exactly when
at least one of the 8 cells of the corresponding `2×2×2` block of level
`n - 1` is occupied. -/
theorem occupancy_or_reduction (v : Grid) (k : ℕ) (_hn : v.n = 2 ^ k) :
    level v 0 = v ∧
    ∀ n, 1 ≤ n → n < k →
      ∀ a b c, a < 2 ^ (k - n) → b < 2 ^ (k - n) → c < 2 ^ (k - n) →
        ((level v n).f a b c ≠ 0 ↔
          ∃ dx dy dz, dx < 2 ∧ dy < 2 ∧ dz < 2 ∧
            (level v (n - 1)).f (2*a+dx) (2*b+dy) (2*c+dz) ≠ 0) := by
  refine ⟨rfl, ?_⟩
  intro n h1 _ a b c _ _ _
  obtain ⟨m, rfl⟩ : ∃ m, n = m + 1 := ⟨n - 1, by omega⟩
  rw [level_succ]
  show (if chunkOcc (chunkAt (level v m) a b c) then 1 else 0) ≠ 0 ↔ _
  simp only [Nat.add_sub_cancel]
  rw [← chunkOcc_iff]
  by_cases h : chunkOcc (chunkAt (level v m) a b c) <;> simp [h]

/-- Witness for `occupancy_or_reduction` at the concrete volume `one4`. -/
theorem occupancy_or_reduction_witness :
    one4.n = 2 ^ 2 ∧
    ((level one4 1).f 0 0 0 ≠ 0 ↔
      ∃ dx dy dz, dx < 2 ∧ dy < 2 ∧ dz < 2 ∧
        (level one4 0).f (2*0+dx) (2*0+dy) (2*0+dz) ≠ 0) :=
  ⟨by decide, (occupancy_or_reduction one4 2 (by decide)).2 1 (by omega) (by omega)
    0 0 0 (by decide) (by decide) (by decide)⟩

/-! ## C3: number and sizes of the pyramid levels -/

/-- C3 (amended) — for a volume of side `d = 2^k` with `k ≥ 1`, the pyramid
has exactly `k` levels of sides `d, d/2, …` down to `2` (not down to `1`:
the coarsest stored level has side 2; the root *node* is emitted from its
single `2×2×2` chunk). -/
theorem svoLevels_sizes (v : Grid) (k : ℕ) (hn : v.n = 2 ^ k) (hk : 1 ≤ k) :
    (svoLevels v).length = k ∧
    (∀ i, i < k → ((svoLevels v).getD i default).n = 2 ^ (k - i)) ∧
    ((svoLevels v).getD (k - 1) default).n = 2 := by
  have he := svoLevels_eq hn hk
  have hget : ∀ i, i < k → (svoLevels v).getD i default = level v i := by
    intro i hi
    rw [he, getD_map_range _ _ _ _ hi]
  refine ⟨by rw [he]; simp, ?_, ?_⟩
  · intro i hi
    rw [hget i hi, level_n_pow hn (by omega)]
  · rw [hget (k-1) (by omega), level_n_pow hn (by omega)]
    have : k - (k - 1) = 1 := by omega
    rw [this, pow_one]

/-- Witness for `svoLevels_sizes` at the concrete volume `full4`. -/
theorem svoLevels_sizes_witness :
    full4.n = 2 ^ 2 ∧ (svoLevels full4).length = 2 ∧
    ((svoLevels full4).getD 1 default).n = 2 :=
  ⟨by decide, (svoLevels_sizes full4 2 (by decide) (by omega)).1,
    (svoLevels_sizes full4 2 (by decide) (by omega)).2.2⟩

/-- Counterexample to C3 as stated: for the `4×4×4` volume `full4` (`k = 2`)
the pyramid does have 2 levels, but their sides are `[4, 2]` — the level
sizes do not go down to `1`. -/
theorem svoLevels_not_down_to_one :
    (svoLevels full4).map Grid.n = [4, 2] ∧
    ¬ ((svoLevels full4).length = 2 ∧
       ((svoLevels full4).map Grid.n).getLast? = some 1) := by
  constructor
  · decide
  · intro h
    have := h.2
    revert this
    decide

theorem level_allZero (v : Grid) (h : allZero v) : ∀ i, allZero (level v i) := by
  intro i
  induction i with
  | zero => exact h
  | succ i ih =>
    intro a b c ha hb hc
    rw [level_succ] at ha hb hc ⊢
    show (if chunkOcc (chunkAt (level v i) a b c) then 1 else 0) = 0
    have hm : a < (level v i).n / 2 := ha
    have hm2 : b < (level v i).n / 2 := hb
    have hm3 : c < (level v i).n / 2 := hc
    rcases hocc : chunkOcc (chunkAt (level v i) a b c) with _ | _
    · simp
    · exfalso
      obtain ⟨dx, dy, dz, hdx, hdy, hdz, hne⟩ := (chunkOcc_iff _ a b c).mp hocc
      exact hne (ih (2*a+dx) (2*b+dy) (2*c+dz) (by omega) (by omega) (by omega))

theorem flat_allZero {g : Grid} (h : allZero g) : ∀ o ∈ g.flat, o = 0 := by
  intro o ho
  obtain ⟨t, ht, rfl⟩ := List.mem_map.mp ho
  have ht' := List.mem_range.mp ht
  have hn : 0 < g.n := by
    rcases Nat.eq_zero_or_pos g.n with h0 | h0
    · rw [h0] at ht'; omega
    · exact h0
  apply h
  · rw [Nat.div_lt_iff_lt_mul (by positivity)]
    calc t < g.n * g.n * g.n := ht'
    _ = g.n * (g.n * g.n) := by ring
  · exact Nat.mod_lt _ hn
  · exact Nat.mod_lt _ hn

theorem assignPtrs_of_zero (l : List ℕ) (p : ℕ) (h : ∀ o ∈ l, o = 0) :
    assignPtrs p l = (p, l) := by
  induction l with
  | nil => rfl
  | cons o rest ih =>
    have ho : o = 0 := h o (by simp)
    have := ih (fun o' ho' => h o' (by simp [ho']))
    simp only [assignPtrs, if_neg (by omega : ¬ o ≠ 0), this]

theorem assignGrid_allZero {g : Grid} (p : ℕ) (h : allZero g) :
    allZero (assignGrid p g).2 := by
  unfold assignGrid
  rw [assignPtrs_of_zero _ _ (flat_allZero h)]
  intro x y z hx hy hz
  show g.flat.getD (encode g.n x y z) 0 = 0
  rw [g.flat_getD hx hy hz]
  exact h x y z hx hy hz

theorem assignLevels_allZero :
    ∀ (gs : List Grid) (p : ℕ), (∀ g ∈ gs, allZero g) →
      ∀ g' ∈ (assignLevels p gs).2, allZero g' := by
  intro gs
  induction gs with
  | nil => intro p _ g' hg'; simp [assignLevels] at hg'
  | cons g rest ih =>
    intro p h g' hg'
    simp only [assignLevels, List.mem_cons] at hg'
    rcases hg' with rfl | hg'
    · exact assignGrid_allZero p (h g (by simp))
    · exact ih _ (fun g'' hg'' => h g'' (by simp [hg''])) g' hg'

theorem nodesOfLevel_allZero {g : Grid} (h : allZero g) : nodesOfLevel g = [] := by
  unfold nodesOfLevel
  rw [List.filter_eq_nil_iff.mpr, List.map_nil]
  intro c hc
  obtain ⟨t, ht, rfl⟩ := List.mem_map.mp hc
  have ht' := List.mem_range.mp ht
  have hm : 0 < g.n / 2 := by
    rcases Nat.eq_zero_or_pos (g.n / 2) with h0 | h0
    · rw [h0] at ht'; omega
    · exact h0
  intro hocc
  obtain ⟨dx, dy, dz, hdx, hdy, hdz, hne⟩ := (chunkOcc_iff _ _ _ _).mp hocc
  have hta : t / (g.n / 2 * (g.n / 2)) < g.n / 2 := by
    rw [Nat.div_lt_iff_lt_mul (by positivity)]
    calc t < g.n / 2 * (g.n / 2) * (g.n / 2) := ht'
    _ = g.n / 2 * (g.n / 2 * (g.n / 2)) := by ring
  have htb : t / (g.n / 2) % (g.n / 2) < g.n / 2 := Nat.mod_lt _ hm
  have htc : t % (g.n / 2) < g.n / 2 := Nat.mod_lt _ hm
  exact hne (h _ _ _ (by omega) (by omega) (by omega))

/-- C5 (amended) — an all-empty volume produces *no* emitted node at all: the
returned array is exactly the 13 fixed placeholder nodes, with no root
record (the emission pass filters out the all-zero chunk of the coarsest
level, `voxels.rs:224`). -/
theorem buildSvo_all_empty (v : Grid) (h : allZero v) :
    buildSvo v = placeholders := by
  show placeholders ++
      ((assignLevels 13 ((svoLevels v).reverse.take (ilog2 v.n - 1))).2
        ++ (svoLevels v).reverse.drop (ilog2 v.n - 1)).flatMap nodesOfLevel
    = placeholders
  have hz : ∀ g ∈ (svoLevels v).reverse, allZero g := by
    intro g hg
    obtain ⟨i, rfl⟩ := svoLevels_mem (List.mem_reverse.mp hg)
    exact level_allZero v h i
  have h1 : ∀ g ∈ (assignLevels 13 ((svoLevels v).reverse.take (ilog2 v.n - 1))).2,
      allZero g :=
    assignLevels_allZero _ _ (fun g hg => hz g (List.mem_of_mem_take hg))
  have h2 : ∀ g ∈ (svoLevels v).reverse.drop (ilog2 v.n - 1), allZero g :=
    fun g hg => hz g (List.mem_of_mem_drop hg)
  rw [List.flatMap_eq_nil_iff.mpr, List.append_nil]
  intro g hg
  rcases List.mem_append.mp hg with hg' | hg'
  · exact nodesOfLevel_allZero (h1 g hg')
  · exact nodesOfLevel_allZero (h2 g hg')

/-- Witness for `buildSvo_all_empty` at the concrete all-empty `4³` volume. -/
theorem buildSvo_all_empty_witness :
    allZero empty4 ∧ buildSvo empty4 = placeholders :=
  ⟨fun _ _ _ _ _ _ => rfl, buildSvo_all_empty empty4 (fun _ _ _ _ _ _ => rfl)⟩

/-- Counterexample to C5 as stated: the all-empty `2×2×2` volume yields an
array of just the 13 placeholders — there is no root node, and no node of
the array has all 8 slots zero. -/
theorem buildSvo_all_empty_no_root :
    (buildSvo empty2).length = 13 ∧
    ¬ ∃ nd ∈ buildSvo empty2, nd.octants = List.replicate 8 0 := by
  constructor
  · decide
  · decide

/-! ## C9: there is no power-of-two check -/

theorem two_pow_ne_three : ∀ j : ℕ, 2 ^ j ≠ 3 := by
  intro j
  match j with
  | 0 => decide
  | 1 => decide
  | (m+2) =>
    have h1 : 1 ≤ 2 ^ m := Nat.one_le_two_pow
    have h2 : 2 ^ (m + 2) = 2 ^ m * 4 := by ring
    omega

/-- Counterexample to C9 as stated: `3` is not a power of two, yet
`build_svo` on a `3×3×3` volume does not fail — it returns a node array
(the odd remainder is silently dropped by `exact_chunks`). -/
theorem buildSvo_no_pow2_assert :
    (¬ ∃ j : ℕ, (3:ℕ) = 2 ^ j) ∧ buildSvoOpt vol3 = some (buildSvo vol3) := by
  constructor
  · rintro ⟨j, hj⟩
    exact two_pow_ne_three j hj.symm
  · rfl

/-- C9 (amended) — `build_svo` performs no power-of-two assertion: for every
volume with nonzero side (power of two or not) it returns normally, with the
13 placeholders at the front; the only failure is `usize::ilog2` panicking
on side `0`. -/
theorem buildSvoOpt_no_check (v : Grid) (h : v.n ≠ 0) :
    ∃ rest, buildSvoOpt v = some (placeholders ++ rest) := by
  refine ⟨((assignLevels 13 ((svoLevels v).reverse.take (ilog2 v.n - 1))).2
      ++ (svoLevels v).reverse.drop (ilog2 v.n - 1)).flatMap nodesOfLevel, ?_⟩
  rw [buildSvoOpt, if_neg h]
  rfl

/-- Witness for `buildSvoOpt_no_check` at the non-power-of-two volume `vol3`. -/
theorem buildSvoOpt_no_check_witness :
    vol3.n ≠ 0 ∧ ∃ rest, buildSvoOpt vol3 = some (placeholders ++ rest) :=
  ⟨by decide, buildSvoOpt_no_check vol3 (by decide)⟩

/-! ## C8: the loader panics; there is no `Result` / `AssetLoadError` -/

/-- Counterexample to C8 as stated: for a missing/corrupt file (`none`) and
for an empty part list, `Voxels::new` panics; neither case produces an
error value surfaced to the caller (no `AssetLoadError` exists in the
code). -/
theorem voxelsNew_panics_not_err :
    (voxelsNew none).isErr = false ∧ (voxelsNew none).isPanic = true ∧
    (voxelsNew (some [])).isErr = false ∧ (voxelsNew (some [])).isPanic = true :=
  ⟨rfl, rfl, rfl, rfl⟩

/-- C8 (amended) — the loader has no error channel: on a missing/corrupt
asset file, and on an empty model-part list, `Voxels::new` panics
(`expect` / `unwrap`); it never returns an `AssetLoadError`-style value. -/
theorem voxelsNew_panics (loaded : Option (List Part))
    (h : loaded = none ∨ loaded = some []) :
    (voxelsNew loaded).isPanic = true ∧ (voxelsNew loaded).isErr = false := by
  rcases h with rfl | rfl <;> exact ⟨rfl, rfl⟩

/-- Witness for `voxelsNew_panics` at the empty part list. -/
theorem voxelsNew_panics_witness :
    (some ([] : List Part) = none ∨ some ([] : List Part) = some []) ∧
    (voxelsNew (some [])).isPanic = true :=
  ⟨Or.inr rfl, (voxelsNew_panics (some []) (Or.inr rfl)).1⟩

/-! ## C7: the write loop and the axis swap -/

theorem applyWrites_foldl (ws : List ((ℤ × ℤ × ℤ) × ℕ))
    (vol0 : (ℤ × ℤ × ℤ) → ℕ) (q : ℤ × ℤ × ℤ) :
    ws.foldl (fun vol w => fun q' => if q' = w.1 then w.2 else vol q') vol0 q =
      ((ws.filter (fun w => w.1 == q)).map Prod.snd).getLastD (vol0 q) := by
  induction ws generalizing vol0 with
  | nil => rfl
  | cons w rest ih =>
    simp only [List.foldl_cons, List.filter_cons]
    by_cases hw : w.1 = q
    · rw [if_pos (by simpa using hw)]
      simp only [List.map_cons, List.getLastD_cons]
      rw [ih]
      congr 1
      simp [hw]
    · rw [if_neg (by simpa using hw)]
      rw [ih]
      congr 1
      simp [Ne.symm hw]

/-- C7 — the loader's write loop: every voxel entry of every part produces
the write `v.i + 1` at `(v.x + tr.x, v.z + tr.z, v.y + tr.y)` (the fixed
axis-swap convention); a cell touched by no write stays `0`; and a cell
touched by exactly one write holds that write's value. -/
theorem loader_writes (parts : List Part) :
    (∀ pt ∈ parts, ∀ v ∈ pt.voxels,
        (((v.x : ℤ) + pt.trX, (v.z : ℤ) + pt.trZ, (v.y : ℤ) + pt.trY), v.i + 1)
          ∈ writesOf parts) ∧
    (∀ q, (∀ w ∈ writesOf parts, w.1 ≠ q) → applyWrites (writesOf parts) q = 0) ∧
    (∀ q w, (writesOf parts).filter (fun w' => w'.1 == q) = [w] →
        applyWrites (writesOf parts) q = w.2) := by
  refine ⟨?_, ?_, ?_⟩
  · intro pt hpt v hv
    exact List.mem_flatMap.mpr ⟨pt, hpt, List.mem_map.mpr ⟨v, hv, rfl⟩⟩
  · intro q hq
    unfold applyWrites
    rw [applyWrites_foldl]
    have : (writesOf parts).filter (fun w => w.1 == q) = [] :=
      List.filter_eq_nil_iff.mpr (fun w hw => by simpa using hq w hw)
    rw [this]
    rfl
  · intro q w hw
    unfold applyWrites
    rw [applyWrites_foldl, hw]
    rfl

/-- Witness for `loader_writes`: the single entry of `part1` is written at
engine position `(0+1, 0+3, 1+2) = (1,3,3)` with value `4+1 = 5`. -/
theorem loader_writes_witness :
    ((writesOf [part1]).filter
        (fun w' => w'.1 == (((1:ℤ), (3:ℤ), (3:ℤ)))) = [(((1:ℤ), (3:ℤ), (3:ℤ)), 5)]) ∧
    applyWrites (writesOf [part1]) ((1:ℤ), (3:ℤ), (3:ℤ)) = 5 :=
  ⟨by decide, (loader_writes [part1]).2.2 ((1:ℤ), (3:ℤ), (3:ℤ))
    (((1:ℤ), (3:ℤ), (3:ℤ)), 5) (by decide)⟩

/-! ## C6: extent and dimension computation -/

theorem foldl_max_spec {α : Type} (f : α → ℤ) (l : List α) : ∀ (a : ℤ),
    a ≤ l.foldl (fun acc x => max acc (f x)) a ∧
    (∀ x ∈ l, f x ≤ l.foldl (fun acc x => max acc (f x)) a) ∧
    (l.foldl (fun acc x => max acc (f x)) a = a ∨
      ∃ x ∈ l, l.foldl (fun acc x => max acc (f x)) a = f x) := by
  induction l with
  | nil => intro a; simp
  | cons x rest ih =>
    intro a
    simp only [List.foldl_cons]
    obtain ⟨h1, h2, h3⟩ := ih (max a (f x))
    refine ⟨le_trans (le_max_left _ _) h1, ?_, ?_⟩
    · intro y hy
      rcases List.mem_cons.mp hy with rfl | hy'
      · exact le_trans (le_max_right _ _) h1
      · exact h2 y hy'
    · rcases h3 with h | ⟨y, hy, h⟩
      · rcases max_choice a (f x) with hm | hm
        · exact Or.inl (by rw [h, hm])
        · exact Or.inr ⟨x, by simp, by rw [h, hm]⟩
      · exact Or.inr ⟨y, by simp [hy], h⟩

theorem foldl_max2_split (ps : List Part) : ∀ (e : ℤ × ℤ × ℤ),
    ps.foldl (fun acc q => max2 acc (partExtent q)) e =
      (ps.foldl (fun acc q => max acc (partExtent q).1) e.1,
       ps.foldl (fun acc q => max acc (partExtent q).2.1) e.2.1,
       ps.foldl (fun acc q => max acc (partExtent q).2.2) e.2.2) := by
  induction ps with
  | nil => intro e; rfl
  | cons q rest ih =>
    intro e
    simp only [List.foldl_cons]
    rw [ih]
    rfl

/-- C6 (amended) — for a non-empty part list the extent is the componentwise
maximum of `offset + size` over all parts (attained per component), and —
writing `m` for the largest axis of the extent, assumed positive — the
allocated side is `2 * 2^(ilog2 m)`: a power of two, and the *smallest power
of two strictly greater* than `m`.  When `m` is already a power of two the
side is `2·m`, not `m`: `2 << ilog2` is not "round up to the next power of
two". -/
theorem loader_extent_dim (p0 : Part) (ps : List Part) (e : ℤ × ℤ × ℤ) (m : ℤ)
    (he : modelExtent (p0 :: ps) = some e)
    (hm : m = max e.1 (max e.2.1 e.2.2)) (hpos : 0 < m) :
    (∀ pt ∈ p0 :: ps, (partExtent pt).1 ≤ e.1 ∧ (partExtent pt).2.1 ≤ e.2.1 ∧
        (partExtent pt).2.2 ≤ e.2.2) ∧
    (∃ pa ∈ p0 :: ps, (partExtent pa).1 = e.1) ∧
    (∃ pb ∈ p0 :: ps, (partExtent pb).2.1 = e.2.1) ∧
    (∃ pc ∈ p0 :: ps, (partExtent pc).2.2 = e.2.2) ∧
    maxDimOf e = some (2 * 2 ^ ilog2 m.toNat) ∧
    (∃ j, 2 * 2 ^ ilog2 m.toNat = 2 ^ j) ∧
    m.toNat < 2 * 2 ^ ilog2 m.toNat ∧
    (∀ j : ℕ, m.toNat < 2 ^ j → 2 * 2 ^ ilog2 m.toNat ≤ 2 ^ j) := by
  have hee : e = (ps.foldl (fun acc q => max acc (partExtent q).1) (partExtent p0).1,
       ps.foldl (fun acc q => max acc (partExtent q).2.1) (partExtent p0).2.1,
       ps.foldl (fun acc q => max acc (partExtent q).2.2) (partExtent p0).2.2) := by
    have : modelExtent (p0 :: ps) =
        some (ps.foldl (fun acc q => max2 acc (partExtent q)) (partExtent p0)) := rfl
    rw [this, foldl_max2_split] at he
    exact ((Option.some.injEq _ _).mp he).symm
  obtain ⟨ha1, ha2, ha3⟩ := foldl_max_spec (fun q => (partExtent q).1) ps (partExtent p0).1
  obtain ⟨hb1, hb2, hb3⟩ := foldl_max_spec (fun q => (partExtent q).2.1) ps (partExtent p0).2.1
  obtain ⟨hc1, hc2, hc3⟩ := foldl_max_spec (fun q => (partExtent q).2.2) ps (partExtent p0).2.2
  have htn : 1 ≤ m.toNat := by omega
  obtain ⟨hs1, hs2⟩ := ilog2_spec m.toNat htn
  refine ⟨?_, ?_, ?_, ?_, ?_, ⟨ilog2 m.toNat + 1, by ring⟩, ?_, ?_⟩
  · intro pt hpt
    rcases List.mem_cons.mp hpt with rfl | hpt'
    · exact ⟨by rw [hee]; exact ha1, by rw [hee]; exact hb1, by rw [hee]; exact hc1⟩
    · exact ⟨by rw [hee]; exact ha2 pt hpt', by rw [hee]; exact hb2 pt hpt',
        by rw [hee]; exact hc2 pt hpt'⟩
  · rcases ha3 with h | ⟨y, hy, h⟩
    · exact ⟨p0, by simp, by rw [hee]; exact h.symm⟩
    · exact ⟨y, by simp [hy], by rw [hee]; exact h.symm⟩
  · rcases hb3 with h | ⟨y, hy, h⟩
    · exact ⟨p0, by simp, by rw [hee]; exact h.symm⟩
    · exact ⟨y, by simp [hy], by rw [hee]; exact h.symm⟩
  · rcases hc3 with h | ⟨y, hy, h⟩
    · exact ⟨p0, by simp, by rw [hee]; exact h.symm⟩
    · exact ⟨y, by simp [hy], by rw [hee]; exact h.symm⟩
  · unfold maxDimOf
    rw [← hm, if_neg (by omega)]
  · calc m.toNat < 2 ^ (ilog2 m.toNat + 1) := hs2
    _ = 2 * 2 ^ ilog2 m.toNat := by ring
  · intro j hj
    have hlt : ilog2 m.toNat < j :=
      (Nat.pow_lt_pow_iff_right (by omega)).mp (lt_of_le_of_lt hs1 hj)
    calc 2 * 2 ^ ilog2 m.toNat = 2 ^ (ilog2 m.toNat + 1) := by ring
    _ ≤ 2 ^ j := Nat.pow_le_pow_right (by omega) (by omega)

/-- Counterexample to C6 as stated: for a part of size `(8,8,8)` at the
origin the largest extent axis is `8`, whose round-up-to-power-of-two is
`8` itself, yet the loader allocates a side of `16 = 2 << ilog2 8`. -/
theorem loader_dim_not_round_up :
    modelExtent [part8] = some (8, 8, 8) ∧
    maxDimOf (8, 8, 8) = some 16 ∧
    specRoundUpPow2 8 = 8 ∧ (16 : ℕ) ≠ 8 := by
  refine ⟨by decide, by decide, ?_, by decide⟩
  rw [specRoundUpPow2, show (8:ℕ) = 2 ^ 3 from rfl, Nat.clog_pow 2 3 (by omega)]

/-- Witness for `loader_extent_dim` at `part8`. -/
theorem loader_extent_dim_witness :
    modelExtent [part8] = some (8, 8, 8) ∧
    maxDimOf (8, 8, 8) = some (2 * 2 ^ ilog2 (8 : ℤ).toNat) :=
  ⟨by decide, (loader_extent_dim part8 [] (8, 8, 8) 8 (by decide) (by decide)
    (by decide)).2.2.2.2.1⟩

/-! ## Generic list helpers -/

theorem getD_eq_getElem {α : Type} (l : List α) (t : ℕ) (d : α) (h : t < l.length) :
    l.getD t d = l[t] := by
  rw [List.getD_eq_getElem?_getD, List.getElem?_eq_getElem h]
  rfl

theorem getD_drop {α : Type} (l : List α) (n t : ℕ) (d : α) :
    (l.drop n).getD t d = l.getD (n + t) d := by
  rw [List.getD_eq_getElem?_getD, List.getD_eq_getElem?_getD, List.getElem?_drop]

theorem drop_append_len {α : Type} (x Y : List α) (s : ℕ) :
    (x ++ Y).drop (x.length + s) = Y.drop s := by
  rw [← List.drop_drop, List.drop_left]

/-- The element at position `countP p (l.take t)` of `l.filter p` is `l[t]`,
when `l[t]` satisfies `p`: the rank of an element among the kept ones. -/
theorem filter_getD_rank {α : Type} (p : α → Bool) :
    ∀ (l : List α) (t : ℕ) (d : α), t < l.length → p (l.getD t d) = true →
      (l.take t).countP p < (l.filter p).length ∧
      (l.filter p).getD ((l.take t).countP p) d = l.getD t d := by
  intro l
  induction l with
  | nil => intro t d ht _; simp at ht
  | cons a rest ih =>
    intro t d ht hp
    cases t with
    | zero =>
      simp only [List.getD_cons_zero] at hp ⊢
      simp only [List.take_zero, List.countP_nil, List.filter_cons, hp, if_pos]
      exact ⟨by simp, by simp⟩
    | succ t =>
      simp only [List.getD_cons_succ] at hp ⊢
      simp only [List.take_succ_cons, List.filter_cons]
      obtain ⟨ih1, ih2⟩ := ih t d (by simpa using ht) hp
      by_cases ha : p a = true
      · rw [List.countP_cons_of_pos _ _ ha, if_pos ha]
        refine ⟨by simp only [List.length_cons]; omega, ?_⟩
        rw [List.getD_cons_succ]
        exact ih2
      · rw [List.countP_cons_of_neg _ _ (by simp [ha]), if_neg ha]
        exact ⟨ih1, ih2⟩

theorem range_reverse (n : ℕ) :
    (List.range n).reverse = (List.range n).map (fun j => n - 1 - j) := by
  induction n with
  | zero => rfl
  | succ n ih =>
    conv_lhs => rw [List.range_succ_eq_map]
    rw [List.reverse_cons, ← List.map_reverse, ih, List.map_map]
    conv_rhs => rw [List.range_succ, List.map_append]
    congr 1
    · apply List.map_congr_left
      intro j hj
      have := List.mem_range.mp hj
      simp only [Function.comp_apply]
      omega
    · have h0 : n + 1 - 1 - n = 0 := by omega
      simp [h0]

theorem listSum_range_eq (f : ℕ → ℕ) (n : ℕ) :
    ((List.range n).map f).sum = ∑ j ∈ Finset.range n, f j := by
  induction n with
  | zero => rfl
  | succ n ih =>
    rw [List.range_succ, List.map_append, List.sum_append, Finset.sum_range_succ, ih]
    simp

/-! ## The pointer pass: closed forms -/

theorem assignPtrs_cons_pos (p o : ℕ) (rest : List ℕ) (h : o ≠ 0) :
    assignPtrs p (o :: rest) =
      ((assignPtrs ((p+1) % 4294967296) rest).1,
       ((p+1) % 4294967296) :: (assignPtrs ((p+1) % 4294967296) rest).2) := by
  simp only [assignPtrs, if_pos h]

theorem assignPtrs_cons_zero (p o : ℕ) (rest : List ℕ) (h : ¬ o ≠ 0) :
    assignPtrs p (o :: rest) =
      ((assignPtrs p rest).1, o :: (assignPtrs p rest).2) := by
  simp only [assignPtrs, if_neg h]

theorem assignPtrs_len (l : List ℕ) : ∀ p, (assignPtrs p l).2.length = l.length := by
  induction l with
  | nil => intro p; rfl
  | cons o rest ih =>
    intro p
    by_cases h : o ≠ 0
    · rw [assignPtrs_cons_pos p o rest h]
      simp [ih]
    · rw [assignPtrs_cons_zero p o rest h]
      simp [ih]

theorem assignPtrs_pattern (l : List ℕ) : ∀ p t, l.getD t 0 = 0 →
    (assignPtrs p l).2.getD t 0 = 0 := by
  induction l with
  | nil => intro p t h; simp [assignPtrs]
  | cons o rest ih =>
    intro p t h
    by_cases ho : o ≠ 0
    · rw [assignPtrs_cons_pos p o rest ho]
      cases t with
      | zero => exact absurd (by simpa using h) ho
      | succ t =>
        rw [List.getD_cons_succ]
        exact ih _ t (by simpa using h)
    · rw [assignPtrs_cons_zero p o rest ho]
      cases t with
      | zero => simpa using h
      | succ t =>
        rw [List.getD_cons_succ]
        exact ih p t (by simpa using h)

theorem assignPtrs_spec (l : List ℕ) :
    ∀ p, p + l.countP (fun o => o != 0) < 4294967296 →
    (assignPtrs p l).1 = p + l.countP (fun o => o != 0) ∧
    ∀ t, t < l.length →
      (assignPtrs p l).2.getD t 0 =
        if l.getD t 0 = 0 then 0
        else p + 1 + (l.take t).countP (fun o => o != 0) := by
  induction l with
  | nil =>
    intro p _
    exact ⟨by simp [assignPtrs], fun t ht => by simp at ht⟩
  | cons o rest ih =>
    intro p hp
    by_cases ho : o ≠ 0
    · have hbo : (o != 0) = true := by simpa using ho
      have hcnt : (o :: rest).countP (fun o => o != 0)
          = rest.countP (fun o => o != 0) + 1 :=
        List.countP_cons_of_pos _ _ hbo
      rw [hcnt] at hp
      have hq : (p + 1) % 4294967296 = p + 1 := Nat.mod_eq_of_lt (by omega)
      obtain ⟨ih1, ih2⟩ := ih (p + 1) (by omega)
      rw [assignPtrs_cons_pos p o rest ho]
      constructor
      · rw [hq, ih1, hcnt]
        omega
      · intro t ht
        cases t with
        | zero =>
          rw [List.getD_cons_zero, List.getD_cons_zero, hq, if_neg ho]
          simp
        | succ t =>
          have hif : (if (o != 0) = true then (1:ℕ) else 0) = 1 := by rw [hbo]; decide
          rw [List.getD_cons_succ, hq, ih2 t (by simpa using ht),
            List.getD_cons_succ, List.take_succ_cons, List.countP_cons]
          by_cases hr : rest.getD t 0 = 0
          · rw [if_pos hr, if_pos hr]
          · rw [if_neg hr, if_neg hr]
            omega
    · have hbo : (o != 0) = false := by simpa using ho
      have ho' : o = 0 := by omega
      have hcnt : (o :: rest).countP (fun o => o != 0)
          = rest.countP (fun o => o != 0) :=
        List.countP_cons_of_neg _ _ (by simp [hbo])
      rw [hcnt] at hp
      obtain ⟨ih1, ih2⟩ := ih p hp
      rw [assignPtrs_cons_zero p o rest ho]
      constructor
      · rw [ih1, hcnt]
      · intro t ht
        cases t with
        | zero =>
          rw [List.getD_cons_zero, List.getD_cons_zero, if_pos ho']
          exact ho'
        | succ t =>
          have hif : (if (o != 0) = true then (1:ℕ) else 0) = 0 := by rw [hbo]; decide
          rw [List.getD_cons_succ, ih2 t (by simpa using ht),
            List.getD_cons_succ, List.take_succ_cons, List.countP_cons]
          by_cases hr : rest.getD t 0 = 0
          · rw [if_pos hr, if_pos hr]
          · rw [if_neg hr, if_neg hr]
            omega

/-! ## The mutated grids -/

theorem assignGrid_n (p : ℕ) (g : Grid) : (assignGrid p g).2.n = g.n := rfl

theorem assignGrid_fst (p : ℕ) (g : Grid) (hov : p + cntG g < 4294967296) :
    (assignGrid p g).1 = p + cntG g :=
  (assignPtrs_spec g.flat p hov).1

theorem assignGrid_f {g : Grid} (p : ℕ) (hov : p + cntG g < 4294967296)
    {x y z : ℕ} (hx : x < g.n) (hy : y < g.n) (hz : z < g.n) :
    (assignGrid p g).2.f x y z =
      if g.f x y z = 0 then 0
      else p + 1 + (g.flat.take (encode g.n x y z)).countP (fun o => o != 0) := by
  show (assignPtrs p g.flat).2.getD (encode g.n x y z) 0 = _
  rw [(assignPtrs_spec g.flat p hov).2 _
    (by rw [g.flat_length]; exact encode_lt hx hy hz)]
  rw [g.flat_getD hx hy hz]

theorem assignGrid_f_zero {g : Grid} (p : ℕ)
    {x y z : ℕ} (hx : x < g.n) (hy : y < g.n) (hz : z < g.n)
    (h : g.f x y z = 0) : (assignGrid p g).2.f x y z = 0 := by
  show (assignPtrs p g.flat).2.getD (encode g.n x y z) 0 = 0
  apply assignPtrs_pattern
  rw [g.flat_getD hx hy hz]
  exact h

theorem assignGrid_f_nonzero_of {g : Grid} (p : ℕ)
    {x y z : ℕ} (hx : x < g.n) (hy : y < g.n) (hz : z < g.n)
    (h : (assignGrid p g).2.f x y z ≠ 0) : g.f x y z ≠ 0 := by
  intro h0
  exact h (assignGrid_f_zero p hx hy hz h0)

/-! ## The pass over all levels -/

theorem assignLevels_cons (p : ℕ) (g : Grid) (gs : List Grid) :
    assignLevels p (g :: gs) =
      ((assignLevels (assignGrid p g).1 gs).1,
       (assignGrid p g).2 :: (assignLevels (assignGrid p g).1 gs).2) := rfl

theorem assignLevels_len (gs : List Grid) :
    ∀ p, (assignLevels p gs).2.length = gs.length := by
  induction gs with
  | nil => intro p; rfl
  | cons g rest ih =>
    intro p
    rw [assignLevels_cons]
    simp [ih]

theorem assignLevels_getD (gs : List Grid) :
    ∀ p, p + (gs.map cntG).sum < 4294967296 →
      ∀ j, j < gs.length →
        (assignLevels p gs).2.getD j default =
          (assignGrid (p + ((gs.take j).map cntG).sum) (gs.getD j default)).2 := by
  induction gs with
  | nil => intro p _ j hj; simp at hj
  | cons g rest ih =>
    intro p hp j hj
    rw [assignLevels_cons]
    have hfst : (assignGrid p g).1 = p + cntG g := by
      apply assignGrid_fst
      simp only [List.map_cons, List.sum_cons] at hp
      omega
    cases j with
    | zero =>
      simp
    | succ j =>
      rw [List.getD_cons_succ, List.getD_cons_succ, hfst]
      rw [ih (p + cntG g) (by simp only [List.map_cons, List.sum_cons] at hp; omega)
        j (by simpa using hj)]
      have harg : p + cntG g + ((rest.take j).map cntG).sum
          = p + (((g :: rest).take (j + 1)).map cntG).sum := by
        rw [List.take_succ_cons, List.map_cons, List.sum_cons]
        omega
      rw [harg]

theorem assignLevels_getD_ex (gs : List Grid) :
    ∀ p j, j < gs.length →
      ∃ p', (assignLevels p gs).2.getD j default =
        (assignGrid p' (gs.getD j default)).2 := by
  induction gs with
  | nil => intro p j hj; simp at hj
  | cons g rest ih =>
    intro p j hj
    rw [assignLevels_cons]
    cases j with
    | zero => exact ⟨p, by simp⟩
    | succ j =>
      rw [List.getD_cons_succ, List.getD_cons_succ]
      exact ih _ j (by simpa using hj)

/-! ## Chunk occupancy of mutated levels -/

theorem decode_bounds {m t : ℕ} (ht : t < m * m * m) :
    t / (m * m) < m ∧ t / m % m < m ∧ t % m < m := by
  have hm : 0 < m := by
    rcases Nat.eq_zero_or_pos m with rfl | h
    · omega
    · exact h
  refine ⟨?_, Nat.mod_lt _ hm, Nat.mod_lt _ hm⟩
  rw [Nat.div_lt_iff_lt_mul (by positivity)]
  calc t < m * m * m := ht
  _ = m * (m * m) := by ring

theorem assignGrid_chunkOcc_imp {g : Grid} (p : ℕ) {a b c : ℕ}
    (ha2 : 2 * a + 1 < g.n) (hb2 : 2 * b + 1 < g.n) (hc2 : 2 * c + 1 < g.n) :
    chunkOcc (chunkAt (assignGrid p g).2 a b c) = true →
    chunkOcc (chunkAt g a b c) = true := by
  intro h
  obtain ⟨dx, dy, dz, hdx, hdy, hdz, hne⟩ := (chunkOcc_iff _ a b c).mp h
  refine (chunkOcc_iff g a b c).mpr ⟨dx, dy, dz, hdx, hdy, hdz, ?_⟩
  exact assignGrid_f_nonzero_of p (by omega) (by omega) (by omega) hne

theorem assignGrid_chunkOcc {g : Grid} (p : ℕ) (hov : p + cntG g < 4294967296)
    {a b c : ℕ}
    (ha2 : 2 * a + 1 < g.n) (hb2 : 2 * b + 1 < g.n) (hc2 : 2 * c + 1 < g.n) :
    chunkOcc (chunkAt (assignGrid p g).2 a b c) = chunkOcc (chunkAt g a b c) := by
  rw [Bool.eq_iff_iff]
  constructor
  · exact assignGrid_chunkOcc_imp p ha2 hb2 hc2
  · intro h
    obtain ⟨dx, dy, dz, hdx, hdy, hdz, hne⟩ := (chunkOcc_iff _ a b c).mp h
    refine (chunkOcc_iff _ a b c).mpr ⟨dx, dy, dz, hdx, hdy, hdz, ?_⟩
    rw [assignGrid_f p hov (by omega) (by omega) (by omega), if_neg hne]
    omega

theorem assignGrid_chunks_take_countP {g : Grid} (p : ℕ)
    (hov : p + cntG g < 4294967296) (t : ℕ) :
    (((assignGrid p g).2.chunks).take t).countP chunkOcc
      = ((g.chunks).take t).countP chunkOcc := by
  have hn : (assignGrid p g).2.n = g.n := rfl
  unfold Grid.chunks
  rw [hn, ← List.map_take, ← List.map_take, List.countP_map, List.countP_map,
    List.take_range]
  apply List.countP_congr
  intro s hs
  have hs' : s < g.n / 2 * (g.n / 2) * (g.n / 2) :=
    lt_of_lt_of_le (List.mem_range.mp hs) (min_le_right _ _)
  obtain ⟨hb1, hb2, hb3⟩ := decode_bounds hs'
  simp only [Function.comp_apply]
  rw [assignGrid_chunkOcc p hov (by omega) (by omega) (by omega)]

theorem assignGrid_chunks_countP {g : Grid} (p : ℕ)
    (hov : p + cntG g < 4294967296) :
    ((assignGrid p g).2.chunks).countP chunkOcc = (g.chunks).countP chunkOcc := by
  have h := assignGrid_chunks_take_countP p hov
    (g.n / 2 * (g.n / 2) * (g.n / 2))
  rwa [List.take_of_length_le (by rw [Grid.chunks_length]; exact le_rfl),
    List.take_of_length_le (by rw [Grid.chunks_length])] at h

theorem assignGrid_chunks_countP_le {g : Grid} (p : ℕ) :
    ((assignGrid p g).2.chunks).countP chunkOcc ≤ (g.chunks).countP chunkOcc := by
  have hn : (assignGrid p g).2.n = g.n := rfl
  unfold Grid.chunks
  rw [hn, List.countP_map, List.countP_map]
  apply List.countP_mono_left
  intro s hs
  obtain ⟨hb1, hb2, hb3⟩ := decode_bounds (List.mem_range.mp hs)
  simp only [Function.comp_apply]
  exact assignGrid_chunkOcc_imp p (by omega) (by omega) (by omega)

theorem reduce_flat_take_countP (g : Grid) (t : ℕ) :
    ((reduceLevel g).flat.take t).countP (fun o => o != 0)
      = ((g.chunks).take t).countP chunkOcc := by
  rw [reduceLevel_flat, ← List.map_take, List.countP_map]
  apply List.countP_congr
  intro c _
  by_cases h : chunkOcc c <;> simp [h]

/-! ## Occupied-cell counts across levels -/

theorem cnt_pos_succ {v : Grid} {i : ℕ} (hpos : 0 < cnt v i)
    (hEven : (level v i).n % 2 = 0) : 0 < cnt v (i + 1) := by
  rw [cnt_succ]
  rw [cnt] at hpos
  obtain ⟨o, ho, hne⟩ := List.countP_pos_iff.mp hpos
  obtain ⟨t, ht, rfl⟩ := List.mem_map.mp ho
  have ht' := List.mem_range.mp ht
  obtain ⟨hx, hy, hz⟩ := decode_bounds ht'
  apply List.countP_pos_iff.mpr
  refine ⟨chunkAt (level v i)
    (t / ((level v i).n * (level v i).n) / 2)
    (t / (level v i).n % (level v i).n / 2) (t % (level v i).n / 2), ?_, ?_⟩
  · unfold Grid.chunks
    apply List.mem_map.mpr
    refine ⟨encode ((level v i).n / 2) (t / ((level v i).n * (level v i).n) / 2)
        (t / (level v i).n % (level v i).n / 2) (t % (level v i).n / 2),
      List.mem_range.mpr (encode_lt (n := (level v i).n / 2)
        (by omega) (by omega) (by omega)), ?_⟩
    obtain ⟨d1, d2, d3⟩ := decode_encode (n := (level v i).n / 2)
      (x := t / ((level v i).n * (level v i).n) / 2)
      (y := t / (level v i).n % (level v i).n / 2)
      (z := t % (level v i).n / 2) (by omega) (by omega)
    rw [d1, d2, d3]
  · apply (chunkOcc_iff (level v i) _ _ _).mpr
    refine ⟨t / ((level v i).n * (level v i).n) % 2, t / (level v i).n % (level v i).n % 2,
      t % (level v i).n % 2, by omega, by omega, by omega, ?_⟩
    have ex : 2 * (t / ((level v i).n * (level v i).n) / 2)
        + t / ((level v i).n * (level v i).n) % 2
        = t / ((level v i).n * (level v i).n) := by omega
    have ey : 2 * (t / (level v i).n % (level v i).n / 2)
        + t / (level v i).n % (level v i).n % 2
        = t / (level v i).n % (level v i).n := by omega
    have ez : 2 * (t % (level v i).n / 2) + t % (level v i).n % 2
        = t % (level v i).n := by omega
    rw [ex, ey, ez]
    simpa using hne

theorem cnt_pos_all {v : Grid} {k : ℕ} (hn : v.n = 2 ^ k) (hne : 0 < cnt v 0) :
    ∀ i, i ≤ k → 0 < cnt v i := by
  intro i
  induction i with
  | zero => intro _; exact hne
  | succ i ih =>
    intro hik
    apply cnt_pos_succ (ih (by omega))
    rw [level_n_pow hn (by omega)]
    have hsub : k - i = (k - i - 1) + 1 := by omega
    rw [hsub, pow_succ]
    omega

theorem cnt_top_le (v : Grid) {k : ℕ} (hn : v.n = 2 ^ k) : cnt v k ≤ 1 := by
  have h1 : (level v k).flat.length = 1 := by
    rw [Grid.flat_length, level_n_pow hn le_rfl]
    simp
  calc cnt v k ≤ (level v k).flat.length := List.countP_le_length _
  _ = 1 := h1

theorem cnt_top (v : Grid) (k : ℕ) (hn : v.n = 2 ^ k) (hne : 0 < cnt v 0) :
    cnt v k = 1 :=
  le_antisymm (cnt_top_le v hn) (cnt_pos_all hn hne k le_rfl)

/-! ## Counting sums: a level has no more occupied cells than the finer one -/

theorem countP_map_range {α : Type} (f : ℕ → α) (p : α → Bool) (N : ℕ) :
    ((List.range N).map f).countP p
      = ∑ t ∈ Finset.range N, if p (f t) then 1 else 0 := by
  induction N with
  | zero => rfl
  | succ N ih =>
    rw [List.range_succ, List.map_append, List.countP_append, ih,
      Finset.sum_range_succ]
    simp [List.countP_cons]

theorem sum_range_add_split (f : ℕ → ℕ) (m : ℕ) : ∀ n,
    ∑ t ∈ Finset.range (m + n), f t
      = (∑ t ∈ Finset.range m, f t) + ∑ j ∈ Finset.range n, f (m + j) := by
  intro n
  induction n with
  | zero => simp
  | succ n ih =>
    have h1 : m + (n + 1) = (m + n) + 1 := by omega
    rw [h1, Finset.sum_range_succ, ih, Finset.sum_range_succ]
    omega

theorem sum_range_mul (f : ℕ → ℕ) : ∀ (a b : ℕ),
    ∑ t ∈ Finset.range (a * b), f t
      = ∑ i ∈ Finset.range a, ∑ j ∈ Finset.range b, f (i * b + j) := by
  intro a
  induction a with
  | zero => simp
  | succ a ih =>
    intro b
    have h1 : (a + 1) * b = a * b + b := by ring
    rw [h1, sum_range_add_split, ih b, Finset.sum_range_succ]

theorem sum_sq_decode (G : ℕ → ℕ → ℕ) (n : ℕ) :
    ∑ r ∈ Finset.range (n * n), G (r / n) (r % n)
      = ∑ y ∈ Finset.range n, ∑ z ∈ Finset.range n, G y z := by
  rcases Nat.eq_zero_or_pos n with rfl | hn
  · simp
  rw [sum_range_mul]
  apply Finset.sum_congr rfl
  intro y _
  apply Finset.sum_congr rfl
  intro z hz
  have hz' := Finset.mem_range.mp hz
  have hd : (y * n + z) / n = y := by
    rw [Nat.mul_comm y n, Nat.mul_add_div hn, Nat.div_eq_of_lt hz', Nat.add_zero]
  have hm : (y * n + z) % n = z := by
    rw [Nat.mul_comm y n, Nat.mul_add_mod, Nat.mod_eq_of_lt hz']
  rw [hd, hm]

theorem sum_cube_decode (F : ℕ → ℕ → ℕ → ℕ) (n : ℕ) :
    ∑ t ∈ Finset.range (n * n * n), F (t / (n * n)) (t / n % n) (t % n)
      = ∑ x ∈ Finset.range n, ∑ y ∈ Finset.range n, ∑ z ∈ Finset.range n, F x y z := by
  rcases Nat.eq_zero_or_pos n with rfl | hn
  · simp
  have h1 : n * n * n = n * (n * n) := by ring
  rw [h1, sum_range_mul]
  refine Finset.sum_congr rfl (fun x _ => ?_)
  have key2 : ∀ r, r < n * n →
      F ((x * (n * n) + r) / (n * n)) ((x * (n * n) + r) / n % n)
        ((x * (n * n) + r) % n)
      = F x (r / n % n) (r % n) := by
    intro r hr
    have e1 : (x * (n * n) + r) / (n * n) = x := by
      rw [Nat.mul_comm x (n * n), Nat.mul_add_div (by positivity),
        Nat.div_eq_of_lt hr, Nat.add_zero]
    have eq0 : x * (n * n) = n * (x * n) := by ring
    have e2 : (x * (n * n) + r) % n = r % n := by
      rw [eq0, Nat.mul_add_mod]
    have e3 : (x * (n * n) + r) / n = x * n + r / n := by
      rw [eq0, Nat.mul_add_div hn]
    have e4 : (x * n + r / n) % n = r / n % n := by
      rw [Nat.mul_comm x n, Nat.mul_add_mod]
    rw [e1, e2, e3, e4]
  rw [Finset.sum_congr rfl (fun r hr => key2 r (Finset.mem_range.mp hr))]
  rw [Finset.sum_congr rfl (fun r hr => by
    rw [Nat.mod_eq_of_lt (show r / n < n by
      rw [Nat.div_lt_iff_lt_mul hn]; exact Finset.mem_range.mp hr)])]
  exact sum_sq_decode (fun y z => F x y z) n

theorem cntG_eq_sum (g : Grid) :
    cntG g = ∑ x ∈ Finset.range g.n, ∑ y ∈ Finset.range g.n,
      ∑ z ∈ Finset.range g.n, (if g.f x y z ≠ 0 then 1 else 0) := by
  show g.flat.countP (fun o => o != 0) = _
  unfold Grid.flat
  rw [countP_map_range,
    ← sum_cube_decode (fun x y z => if g.f x y z ≠ 0 then 1 else 0) g.n]
  refine Finset.sum_congr rfl (fun t _ => ?_)
  by_cases h : g.f (t / (g.n * g.n)) (t / g.n % g.n) (t % g.n) = 0 <;> simp [h]

theorem chunks_countP_eq_sum (g : Grid) :
    g.chunks.countP chunkOcc
      = ∑ a ∈ Finset.range (g.n / 2), ∑ b ∈ Finset.range (g.n / 2),
          ∑ c ∈ Finset.range (g.n / 2),
            (if chunkOcc (chunkAt g a b c) then 1 else 0) := by
  unfold Grid.chunks
  rw [countP_map_range,
    ← sum_cube_decode (fun a b c => if chunkOcc (chunkAt g a b c) then 1 else 0)
      (g.n / 2)]

theorem sum_range_double (h : ℕ → ℕ) (m : ℕ) :
    ∑ x ∈ Finset.range (2 * m), h x
      = ∑ i ∈ Finset.range m, ∑ dx ∈ Finset.range 2, h (2 * i + dx) := by
  induction m with
  | zero => simp
  | succ m ih =>
    have h1 : 2 * (m + 1) = 2 * m + 1 + 1 := by ring
    rw [h1, Finset.sum_range_succ, Finset.sum_range_succ, ih,
      Finset.sum_range_succ, Finset.sum_range_succ, Finset.sum_range_one]
    have e0 : 2 * m + 0 = 2 * m := Nat.add_zero _
    rw [e0]
    omega

theorem chunks_countP_le_cntG (g : Grid) (hEven : g.n % 2 = 0) :
    g.chunks.countP chunkOcc ≤ cntG g := by
  rw [chunks_countP_eq_sum, cntG_eq_sum]
  set m := g.n / 2 with hmdef
  have hm : g.n = 2 * m := by omega
  rw [hm]
  have key : ∀ a b c, (if chunkOcc (chunkAt g a b c) then (1:ℕ) else 0)
      ≤ ∑ dx ∈ Finset.range 2, ∑ dy ∈ Finset.range 2, ∑ dz ∈ Finset.range 2,
          (if g.f (2*a+dx) (2*b+dy) (2*c+dz) ≠ 0 then (1:ℕ) else 0) := by
    intro a b c
    by_cases h : chunkOcc (chunkAt g a b c) = true
    · rw [if_pos h]
      obtain ⟨dx, dy, dz, hdx, hdy, hdz, hne⟩ := (chunkOcc_iff g a b c).mp h
      calc (1:ℕ) = (if g.f (2*a+dx) (2*b+dy) (2*c+dz) ≠ 0 then 1 else 0) :=
            (if_pos hne).symm
      _ ≤ ∑ dz' ∈ Finset.range 2,
            (if g.f (2*a+dx) (2*b+dy) (2*c+dz') ≠ 0 then 1 else 0) :=
          Finset.single_le_sum
            (f := fun dz' => if g.f (2*a+dx) (2*b+dy) (2*c+dz') ≠ 0 then (1:ℕ) else 0)
            (fun _ _ => Nat.zero_le _) (Finset.mem_range.mpr hdz)
      _ ≤ ∑ dy' ∈ Finset.range 2, ∑ dz' ∈ Finset.range 2,
            (if g.f (2*a+dx) (2*b+dy') (2*c+dz') ≠ 0 then 1 else 0) :=
          Finset.single_le_sum
            (f := fun dy' => ∑ dz' ∈ Finset.range 2,
              (if g.f (2*a+dx) (2*b+dy') (2*c+dz') ≠ 0 then (1:ℕ) else 0))
            (fun _ _ => Nat.zero_le _) (Finset.mem_range.mpr hdy)
      _ ≤ ∑ dx' ∈ Finset.range 2, ∑ dy' ∈ Finset.range 2, ∑ dz' ∈ Finset.range 2,
            (if g.f (2*a+dx') (2*b+dy') (2*c+dz') ≠ 0 then 1 else 0) :=
          Finset.single_le_sum
            (f := fun dx' => ∑ dy' ∈ Finset.range 2, ∑ dz' ∈ Finset.range 2,
              (if g.f (2*a+dx') (2*b+dy') (2*c+dz') ≠ 0 then (1:ℕ) else 0))
            (fun _ _ => Nat.zero_le _) (Finset.mem_range.mpr hdx)
    · rw [if_neg h]
      exact Nat.zero_le _
  have expand : ∑ x ∈ Finset.range (2*m), ∑ y ∈ Finset.range (2*m),
        ∑ z ∈ Finset.range (2*m), (if g.f x y z ≠ 0 then (1:ℕ) else 0)
      = ∑ a ∈ Finset.range m, ∑ dx ∈ Finset.range 2, ∑ b ∈ Finset.range m,
          ∑ dy ∈ Finset.range 2, ∑ c ∈ Finset.range m, ∑ dz ∈ Finset.range 2,
            (if g.f (2*a+dx) (2*b+dy) (2*c+dz) ≠ 0 then (1:ℕ) else 0) := by
    rw [sum_range_double]
    refine Finset.sum_congr rfl (fun a _ => ?_)
    refine Finset.sum_congr rfl (fun dx _ => ?_)
    rw [sum_range_double]
    refine Finset.sum_congr rfl (fun b _ => ?_)
    refine Finset.sum_congr rfl (fun dy _ => ?_)
    rw [sum_range_double]
  calc ∑ a ∈ Finset.range m, ∑ b ∈ Finset.range m, ∑ c ∈ Finset.range m,
        (if chunkOcc (chunkAt g a b c) then (1:ℕ) else 0)
      ≤ ∑ a ∈ Finset.range m, ∑ b ∈ Finset.range m, ∑ c ∈ Finset.range m,
          ∑ dx ∈ Finset.range 2, ∑ dy ∈ Finset.range 2, ∑ dz ∈ Finset.range 2,
            (if g.f (2*a+dx) (2*b+dy) (2*c+dz) ≠ 0 then (1:ℕ) else 0) :=
        Finset.sum_le_sum (fun a _ => Finset.sum_le_sum (fun b _ =>
          Finset.sum_le_sum (fun c _ => key a b c)))
  _ = ∑ a ∈ Finset.range m, ∑ b ∈ Finset.range m, ∑ dx ∈ Finset.range 2,
        ∑ c ∈ Finset.range m, ∑ dy ∈ Finset.range 2, ∑ dz ∈ Finset.range 2,
          (if g.f (2*a+dx) (2*b+dy) (2*c+dz) ≠ 0 then (1:ℕ) else 0) :=
      Finset.sum_congr rfl (fun a _ => Finset.sum_congr rfl (fun b _ =>
        Finset.sum_comm))
  _ = ∑ a ∈ Finset.range m, ∑ dx ∈ Finset.range 2, ∑ b ∈ Finset.range m,
        ∑ c ∈ Finset.range m, ∑ dy ∈ Finset.range 2, ∑ dz ∈ Finset.range 2,
          (if g.f (2*a+dx) (2*b+dy) (2*c+dz) ≠ 0 then (1:ℕ) else 0) :=
      Finset.sum_congr rfl (fun a _ => Finset.sum_comm)
  _ = ∑ a ∈ Finset.range m, ∑ dx ∈ Finset.range 2, ∑ b ∈ Finset.range m,
        ∑ dy ∈ Finset.range 2, ∑ c ∈ Finset.range m, ∑ dz ∈ Finset.range 2,
          (if g.f (2*a+dx) (2*b+dy) (2*c+dz) ≠ 0 then (1:ℕ) else 0) :=
      Finset.sum_congr rfl (fun a _ => Finset.sum_congr rfl (fun dx _ =>
        Finset.sum_congr rfl (fun b _ => Finset.sum_comm)))
  _ = ∑ x ∈ Finset.range (2*m), ∑ y ∈ Finset.range (2*m),
        ∑ z ∈ Finset.range (2*m), (if g.f x y z ≠ 0 then (1:ℕ) else 0) :=
      expand.symm

theorem cnt_succ_le {v : Grid} {i : ℕ} (hEven : (level v i).n % 2 = 0) :
    cnt v (i + 1) ≤ cnt v i := by
  rw [cnt_succ]
  exact chunks_countP_le_cntG (level v i) hEven

theorem cnt_le_cnt_zero {v : Grid} {k : ℕ} (hn : v.n = 2 ^ k) :
    ∀ i, i ≤ k → cnt v i ≤ cnt v 0 := by
  intro i
  induction i with
  | zero => intro _; exact le_rfl
  | succ i ih =>
    intro hik
    refine le_trans (cnt_succ_le ?_) (ih (by omega))
    rw [level_n_pow hn (by omega)]
    have hsub : k - i = (k - i - 1) + 1 := by omega
    rw [hsub, pow_succ]
    omega

/-! ## Counter values and block starts -/

theorem ilog2_n {v : Grid} {k : ℕ} (hn : v.n = 2 ^ k) : ilog2 v.n = k := by
  rw [hn]
  exact ilog2_two_pow k

theorem baseAux_succ (v : Grid) (d : ℕ) :
    baseAux v (d + 1) = baseAux v d + cnt v (ilog2 v.n - 1 - d) := rfl

theorem baseAux_mono (v : Grid) (d : ℕ) : ∀ d', d ≤ d' → baseAux v d ≤ baseAux v d' := by
  intro d'
  induction d' with
  | zero =>
    intro h
    have hd : d = 0 := by omega
    subst hd
    exact le_rfl
  | succ d' ih =>
    intro h
    rcases Nat.eq_or_lt_of_le h with rfl | h'
    · exact le_rfl
    · calc baseAux v d ≤ baseAux v d' := ih (by omega)
      _ ≤ baseAux v d' + cnt v (ilog2 v.n - 1 - d') := Nat.le_add_right _ _
      _ = baseAux v (d' + 1) := (baseAux_succ v d').symm

theorem baseAux_ge (v : Grid) (d : ℕ) : 13 ≤ baseAux v d :=
  baseAux_mono v 0 d (Nat.zero_le d)

theorem baseAux_eq_sum (v : Grid) : ∀ d,
    baseAux v d = 13 + ∑ t ∈ Finset.range d, cnt v (ilog2 v.n - 1 - t) := by
  intro d
  induction d with
  | zero => simp [baseAux]
  | succ d ih =>
    rw [baseAux_succ, ih, Finset.sum_range_succ]
    omega

theorem baseAux_top {v : Grid} {k : ℕ} (hn : v.n = 2 ^ k) :
    baseAux v (k - 1) = 13 + totalPtrs v := by
  have e : ilog2 v.n = k := ilog2_n hn
  have h2 := baseAux_eq_sum v (k - 1)
  rw [e] at h2
  have h4 : totalPtrs v = ∑ j ∈ Finset.range (k - 1), cnt v (j + 1) := by
    unfold totalPtrs
    rw [e, listSum_range_eq]
  have h5 : ∑ t ∈ Finset.range (k - 1), cnt v (k - 1 - t)
      = ∑ t ∈ Finset.range (k - 1), cnt v ((k - 1) - 1 - t + 1) :=
    Finset.sum_congr rfl (fun t ht => by
      have := Finset.mem_range.mp ht
      congr 1
      omega)
  rw [h5, Finset.sum_range_reflect (fun j => cnt v (j + 1)) (k - 1)] at h2
  omega

theorem baseAux_add_cnt_le {v : Grid} {k : ℕ} (hn : v.n = 2 ^ k)
    (j : ℕ) (hj : j + 1 ≤ k - 1) :
    baseAux v j + cnt v (k - 1 - j) ≤ 13 + totalPtrs v := by
  have e : ilog2 v.n = k := ilog2_n hn
  have h1 : baseAux v (j + 1) = baseAux v j + cnt v (k - 1 - j) := by
    rw [baseAux_succ, e]
  rw [← h1, ← baseAux_top hn]
  exact baseAux_mono v (j + 1) (k - 1) hj

theorem blockStart_zero (v : Grid) : blockStart v 0 = 13 := by
  simp [blockStart]

theorem blockStart_succ (v : Grid) (j : ℕ) :
    blockStart v (j + 1) = blockStart v j + cnt v (ilog2 v.n - j) := by
  unfold blockStart
  rw [List.range_succ, List.map_append, List.sum_append]
  simp [Nat.add_assoc]

theorem blockStart_mono (v : Grid) (j : ℕ) : ∀ j', j ≤ j' →
    blockStart v j ≤ blockStart v j' := by
  intro j'
  induction j' with
  | zero =>
    intro h
    have hd : j = 0 := by omega
    subst hd
    exact le_rfl
  | succ j' ih =>
    intro h
    rcases Nat.eq_or_lt_of_le h with rfl | h'
    · exact le_rfl
    · calc blockStart v j ≤ blockStart v j' := ih (by omega)
      _ ≤ blockStart v j' + cnt v (ilog2 v.n - j') := Nat.le_add_right _ _
      _ = blockStart v (j' + 1) := (blockStart_succ v j').symm

theorem blockStart_succ_baseAux {v : Grid} {k : ℕ} (hn : v.n = 2 ^ k) (j : ℕ) :
    blockStart v (j + 1) = baseAux v j + cnt v k := by
  have e : ilog2 v.n = k := ilog2_n hn
  unfold blockStart
  rw [e, listSum_range_eq, baseAux_eq_sum, e, Finset.sum_range_succ']
  have h1 : ∑ t ∈ Finset.range j, cnt v (k - (t + 1))
      = ∑ t ∈ Finset.range j, cnt v (k - 1 - t) :=
    Finset.sum_congr rfl (fun t _ => by congr 1; omega)
  rw [h1]
  have h2 : k - 0 = k := by omega
  rw [h2]
  omega

/-! ## The list of grids seen by the emission pass -/

theorem getD_append_right {α : Type} (l1 l2 : List α) (d : α) (n : ℕ)
    (h : l1.length ≤ n) :
    (l1 ++ l2).getD n d = l2.getD (n - l1.length) d := by
  rw [List.getD_eq_getElem?_getD, List.getElem?_append_right h,
    List.getD_eq_getElem?_getD]

theorem revTake_eq {v : Grid} {k : ℕ} (hn : v.n = 2 ^ k) (hk : 1 ≤ k) :
    (svoLevels v).reverse.take (ilog2 v.n - 1)
      = (List.range (k - 1)).map (fun j => level v (k - 1 - j)) := by
  rw [ilog2_n hn, svoLevels_eq hn hk, ← List.map_reverse, range_reverse,
    List.map_map, ← List.map_take, List.take_range]
  have hmin : min (k - 1) k = k - 1 := by omega
  rw [hmin]
  rfl

theorem revDrop_eq {v : Grid} {k : ℕ} (hn : v.n = 2 ^ k) (hk : 1 ≤ k) :
    (svoLevels v).reverse.drop (ilog2 v.n - 1) = [v] := by
  rw [ilog2_n hn, svoLevels_eq hn hk, ← List.map_reverse, range_reverse,
    List.map_map, ← List.map_drop]
  have hr : (List.range k).drop (k - 1) = [k - 1] := by
    conv_lhs => rw [show k = (k - 1) + 1 by omega, List.range_succ]
    exact List.drop_left' (List.length_range _)
  rw [hr]
  simp only [List.map_cons, List.map_nil, Function.comp_apply, Nat.sub_self]
  rfl

theorem revTake_cntG_sum {v : Grid} {k : ℕ} (hn : v.n = 2 ^ k) :
    ((((List.range (k - 1)).map (fun j => level v (k - 1 - j))).map cntG)).sum
      = totalPtrs v := by
  rw [List.map_map, listSum_range_eq]
  have h0 : ∑ t ∈ Finset.range (k - 1), (cntG ∘ fun j => level v (k - 1 - j)) t
      = ∑ t ∈ Finset.range (k - 1), cnt v (k - 1 - t) :=
    Finset.sum_congr rfl (fun t _ => rfl)
  have h2 := baseAux_eq_sum v (k - 1)
  rw [ilog2_n hn] at h2
  have h3 := baseAux_top hn
  omega

theorem svoGrids_length {v : Grid} {k : ℕ} (hn : v.n = 2 ^ k) (hk : 1 ≤ k) :
    (svoGrids v).length = k := by
  unfold svoGrids
  rw [List.length_append, assignLevels_len, revTake_eq hn hk, revDrop_eq hn hk]
  simp only [List.length_map, List.length_range, List.length_cons, List.length_nil]
  omega

theorem svoGrids_getD_lt {v : Grid} {k : ℕ} (hn : v.n = 2 ^ k) (hk : 1 ≤ k)
    (hov : 13 + totalPtrs v < 4294967296) {j : ℕ} (hj : j < k - 1) :
    (svoGrids v).getD j default = mutatedLevel v j := by
  unfold svoGrids
  rw [List.getD_append _ _ _ j
    (by rw [assignLevels_len, revTake_eq hn hk]; simp; omega)]
  rw [revTake_eq hn hk]
  rw [assignLevels_getD _ 13 (by rw [revTake_cntG_sum hn]; omega) j
    (by simp; omega)]
  unfold mutatedLevel
  have e : ilog2 v.n = k := ilog2_n hn
  rw [e]
  have hA : (((((List.range (k - 1)).map (fun t => level v (k - 1 - t))).take j).map
        cntG)).sum = ∑ t ∈ Finset.range j, cnt v (k - 1 - t) := by
    rw [← List.map_take, List.take_range, show min j (k - 1) = j by omega,
      List.map_map, listSum_range_eq]
    exact Finset.sum_congr rfl (fun t _ => rfl)
  have hB := baseAux_eq_sum v j
  rw [e] at hB
  have hbase : 13 + (((((List.range (k - 1)).map (fun t => level v (k - 1 - t))).take
      j).map cntG)).sum = baseAux v j := by omega
  rw [hbase, getD_map_range _ _ _ _ (by omega)]

theorem svoGrids_getD_last {v : Grid} {k : ℕ} (hn : v.n = 2 ^ k) (hk : 1 ≤ k) :
    (svoGrids v).getD (k - 1) default = v := by
  unfold svoGrids
  have hlen : (assignLevels 13 ((svoLevels v).reverse.take (ilog2 v.n - 1))).2.length
      = k - 1 := by
    rw [assignLevels_len, revTake_eq hn hk]
    simp
  rw [getD_append_right _ _ _ _ (by omega), hlen, Nat.sub_self, revDrop_eq hn hk]
  rfl

theorem buildSvo_eq (v : Grid) :
    buildSvo v = placeholders ++ (svoGrids v).flatMap nodesOfLevel := rfl

theorem placeholders_length : placeholders.length = 13 := by decide

theorem nodesOfLevel_length (g : Grid) :
    (nodesOfLevel g).length = g.chunks.countP chunkOcc := by
  unfold nodesOfLevel
  rw [List.length_map, ← List.countP_eq_length_filter]

theorem svoGrids_block_len {v : Grid} {k : ℕ} (hn : v.n = 2 ^ k) (hk : 1 ≤ k)
    (hov : 13 + totalPtrs v < 4294967296) {j : ℕ} (hj : j < k) :
    (nodesOfLevel ((svoGrids v).getD j default)).length = cnt v (k - j) := by
  rcases Nat.lt_or_ge j (k - 1) with hj' | hj'
  · rw [svoGrids_getD_lt hn hk hov hj']
    unfold mutatedLevel
    rw [nodesOfLevel_length, ilog2_n hn]
    rw [assignGrid_chunks_countP _ (by
      have hle := baseAux_add_cnt_le hn j (by omega)
      have hcg : cntG (level v (k - 1 - j)) = cnt v (k - 1 - j) := rfl
      omega)]
    have hcs := cnt_succ v (k - 1 - j)
    have harg : k - 1 - j + 1 = k - j := by omega
    rw [harg] at hcs
    exact hcs.symm
  · have hj2 : j = k - 1 := by omega
    subst hj2
    rw [svoGrids_getD_last hn hk, nodesOfLevel_length]
    have hcs := cnt_succ v 0
    have h01 : (level v 0).chunks.countP chunkOcc = v.chunks.countP chunkOcc := rfl
    rw [h01] at hcs
    have harg : k - (k - 1) = 1 := by omega
    rw [harg]
    exact hcs.symm

theorem svoGrids_drop_cons {v : Grid} {k : ℕ} (hn : v.n = 2 ^ k) (hk : 1 ≤ k)
    {j : ℕ} (hj : j < k) :
    (svoGrids v).drop j
      = (svoGrids v).getD j default :: (svoGrids v).drop (j + 1) := by
  have hlen : (svoGrids v).length = k := svoGrids_length hn hk
  rw [List.drop_eq_getElem_cons (by omega)]
  congr 1
  exact (getD_eq_getElem _ _ _ (by omega)).symm

theorem buildSvo_drop {v : Grid} {k : ℕ} (hn : v.n = 2 ^ k) (hk : 1 ≤ k)
    (hov : 13 + totalPtrs v < 4294967296) :
    ∀ j, j ≤ k → (buildSvo v).drop (blockStart v j)
      = ((svoGrids v).drop j).flatMap nodesOfLevel := by
  intro j
  induction j with
  | zero =>
    intro _
    rw [buildSvo_eq, blockStart_zero, ← placeholders_length, List.drop_left,
      List.drop_zero]
  | succ j ih =>
    intro hjk
    rw [blockStart_succ, ilog2_n hn, ← List.drop_drop, ih (by omega),
      svoGrids_drop_cons hn hk (by omega), List.flatMap_cons,
      ← svoGrids_block_len hn hk hov (by omega : j < k), List.drop_left]

theorem buildSvo_getD_block {v : Grid} {k : ℕ} (hn : v.n = 2 ^ k) (hk : 1 ≤ k)
    (hov : 13 + totalPtrs v < 4294967296) {j r : ℕ} (hj : j < k)
    (hr : r < cnt v (k - j)) :
    (buildSvo v).getD (blockStart v j + r) default
      = (nodesOfLevel ((svoGrids v).getD j default)).getD r default := by
  have hd := buildSvo_drop hn hk hov j (by omega)
  have h1 : (buildSvo v).getD (blockStart v j + r) default
      = ((buildSvo v).drop (blockStart v j)).getD r default := (getD_drop _ _ _ _).symm
  rw [h1, hd, svoGrids_drop_cons hn hk hj, List.flatMap_cons,
    List.getD_append _ _ _ r (by rw [svoGrids_block_len hn hk hov hj]; exact hr)]

theorem map_sum_eq_sum_getD {α : Type} (l : List α) (f : α → ℕ) (d : α) :
    (l.map f).sum = ∑ j ∈ Finset.range l.length, f (l.getD j d) := by
  induction l with
  | nil => rfl
  | cons a rest ih =>
    rw [List.map_cons, List.sum_cons, List.length_cons, Finset.sum_range_succ']
    simp only [List.getD_cons_succ, List.getD_cons_zero, ih]
    omega

theorem buildSvo_length_eq {v : Grid} {k : ℕ} (hn : v.n = 2 ^ k) (hk : 1 ≤ k)
    (hov : 13 + totalPtrs v < 4294967296) :
    (buildSvo v).length = blockStart v k := by
  rw [buildSvo_eq, List.length_append, placeholders_length, List.length_flatMap]
  rw [show List.map (List.length ∘ nodesOfLevel) (svoGrids v)
      = (svoGrids v).map (fun g => (nodesOfLevel g).length) from rfl]
  rw [map_sum_eq_sum_getD _ _ default, svoGrids_length hn hk]
  unfold blockStart
  rw [listSum_range_eq, ilog2_n hn]
  congr 1
  exact Finset.sum_congr rfl (fun j hj =>
    svoGrids_block_len hn hk hov (Finset.mem_range.mp hj))

/-! ## The content of each emitted node -/

theorem slotVal_zero_level (v : Grid) (x y z : ℕ) :
    slotVal v 0 x y z = v.f x y z := by
  unfold slotVal
  by_cases h : (level v 0).f x y z = 0
  · rw [if_pos h]
    exact h.symm
  · rw [if_neg h, if_pos rfl]

/-- Where an occupied chunk's node lands inside one level's emitted node
list: its rank among the occupied chunks. -/
theorem nodes_getD_of_rank (G : Grid) {a b c : ℕ}
    (ha : a < G.n / 2) (hb : b < G.n / 2) (hc : c < G.n / 2)
    (hocc : chunkOcc (chunkAt G a b c) = true) :
    (G.chunks.take (encode (G.n / 2) a b c)).countP chunkOcc
        < (nodesOfLevel G).length ∧
    (nodesOfLevel G).getD
        ((G.chunks.take (encode (G.n / 2) a b c)).countP chunkOcc) default
      = ⟨chunkAt G a b c⟩ := by
  have ht : encode (G.n / 2) a b c < G.chunks.length := by
    rw [Grid.chunks_length]
    exact encode_lt ha hb hc
  have hp : chunkOcc (G.chunks.getD (encode (G.n / 2) a b c) []) = true := by
    rw [G.chunks_getD [] ha hb hc]
    exact hocc
  obtain ⟨h1, h2⟩ := filter_getD_rank chunkOcc G.chunks (encode (G.n / 2) a b c) [] ht hp
  rw [G.chunks_getD [] ha hb hc] at h2
  have hlen : (nodesOfLevel G).length = (G.chunks.filter chunkOcc).length := by
    rw [nodesOfLevel_length, List.countP_eq_length_filter]
  refine ⟨by rw [hlen]; exact h1, ?_⟩
  unfold nodesOfLevel
  rw [getD_eq_getElem _ _ _ (by rw [List.length_map]; exact h1), List.getElem_map,
    ← getD_eq_getElem _ _ [] h1, h2]

theorem block_node_eq {v : Grid} {k : ℕ} (hn : v.n = 2 ^ k) (hk : 1 ≤ k)
    (hov : 13 + totalPtrs v < 4294967296) {j a b c : ℕ} (hj : j < k)
    (ha : a < 2 ^ j) (hb : b < 2 ^ j) (hc : c < 2 ^ j)
    (hocc : chunkOcc (chunkAt (level v (k - 1 - j)) a b c) = true) :
    chunkRank v (k - 1 - j) a b c < cnt v (k - j) ∧
    (nodesOfLevel ((svoGrids v).getD j default)).getD
        (chunkRank v (k - 1 - j) a b c) default
      = ⟨chunkAt ((svoGrids v).getD j default) a b c⟩ := by
  have e : ilog2 v.n = k := ilog2_n hn
  have hLn : (level v (k - 1 - j)).n = 2 ^ (j + 1) := by
    rw [level_n_pow hn (by omega)]
    congr 1
    omega
  have hp2 : (2:ℕ) ^ (j + 1) = 2 ^ j * 2 := pow_succ 2 j
  rcases Nat.lt_or_ge j (k - 1) with hj' | hj'
  · have hG : (svoGrids v).getD j default = mutatedLevel v j :=
      svoGrids_getD_lt hn hk hov hj'
    have hML : mutatedLevel v j
        = (assignGrid (baseAux v j) (level v (k - 1 - j))).2 := by
      unfold mutatedLevel
      rw [e]
    have hbound : baseAux v j + cntG (level v (k - 1 - j)) < 4294967296 := by
      have hle := baseAux_add_cnt_le hn j (by omega)
      have hcg : cntG (level v (k - 1 - j)) = cnt v (k - 1 - j) := rfl
      omega
    have hGn : ((svoGrids v).getD j default).n = (level v (k - 1 - j)).n := by
      rw [hG, hML]
      rfl
    have hside : ((svoGrids v).getD j default).n / 2 = 2 ^ j := by
      rw [hGn, hLn, hp2]
      omega
    have hOcc : chunkOcc (chunkAt ((svoGrids v).getD j default) a b c) = true := by
      rw [hG, hML, assignGrid_chunkOcc _ hbound (by rw [hLn, hp2]; omega)
        (by rw [hLn, hp2]; omega) (by rw [hLn, hp2]; omega)]
      exact hocc
    obtain ⟨h1, h2⟩ := nodes_getD_of_rank ((svoGrids v).getD j default)
      (by rw [hside]; exact ha) (by rw [hside]; exact hb) (by rw [hside]; exact hc) hOcc
    have hrank : ((((svoGrids v).getD j default).chunks.take
          (encode (((svoGrids v).getD j default).n / 2) a b c)).countP chunkOcc)
        = chunkRank v (k - 1 - j) a b c := by
      unfold chunkRank
      rw [hG, hML, assignGrid_chunks_take_countP _ hbound]
      rfl
    rw [hrank] at h1 h2
    rw [svoGrids_block_len hn hk hov hj] at h1
    exact ⟨h1, h2⟩
  · have hj2 : j = k - 1 := by omega
    subst hj2
    have hG : (svoGrids v).getD (k - 1) default = v := svoGrids_getD_last hn hk
    have hside : v.n / 2 = 2 ^ (k - 1) := by
      have hv2 : v.n = 2 ^ (k - 1) * 2 := by
        rw [hn, ← pow_succ]
        congr 1
        omega
      omega
    have hl0 : level v (k - 1 - (k - 1)) = v := by
      rw [show k - 1 - (k - 1) = 0 by omega]
      rfl
    have hOcc : chunkOcc (chunkAt ((svoGrids v).getD (k - 1) default) a b c) = true := by
      rw [hG]
      exact hl0 ▸ hocc
    obtain ⟨h1, h2⟩ := nodes_getD_of_rank ((svoGrids v).getD (k - 1) default)
      (by rw [hG, hside]; exact ha) (by rw [hG, hside]; exact hb)
      (by rw [hG, hside]; exact hc) hOcc
    have hrank : ((((svoGrids v).getD (k - 1) default).chunks.take
          (encode (((svoGrids v).getD (k - 1) default).n / 2) a b c)).countP chunkOcc)
        = chunkRank v (k - 1 - (k - 1)) a b c := by
      unfold chunkRank
      rw [hG, show k - 1 - (k - 1) = 0 by omega]
      rfl
    rw [hrank] at h1 h2
    rw [svoGrids_block_len hn hk hov hj] at h1
    exact ⟨h1, h2⟩

theorem mutated_cell_eq_slotVal {v : Grid} {k : ℕ} (hn : v.n = 2 ^ k) (hk : 1 ≤ k)
    (hov : 13 + totalPtrs v < 4294967296) (hne : 0 < cnt v 0) {j x y z : ℕ}
    (hj : j < k - 1) (hx : x < 2 ^ (j + 1)) (hy : y < 2 ^ (j + 1))
    (hz : z < 2 ^ (j + 1)) :
    (mutatedLevel v j).f x y z = slotVal v (k - 1 - j) x y z := by
  have e : ilog2 v.n = k := ilog2_n hn
  have hML : mutatedLevel v j
      = (assignGrid (baseAux v j) (level v (k - 1 - j))).2 := by
    unfold mutatedLevel
    rw [e]
  have hLn : (level v (k - 1 - j)).n = 2 ^ (j + 1) := by
    rw [level_n_pow hn (by omega)]
    congr 1
    omega
  have hbound : baseAux v j + cntG (level v (k - 1 - j)) < 4294967296 := by
    have hle := baseAux_add_cnt_le hn j (by omega)
    have hcg : cntG (level v (k - 1 - j)) = cnt v (k - 1 - j) := rfl
    omega
  rw [hML, assignGrid_f (baseAux v j) hbound (by rw [hLn]; exact hx)
    (by rw [hLn]; exact hy) (by rw [hLn]; exact hz)]
  unfold slotVal
  by_cases h : (level v (k - 1 - j)).f x y z = 0
  · rw [if_pos h, if_pos h]
  · rw [if_neg h, if_neg h, if_neg (show ¬ (k - 1 - j) = 0 by omega)]
    unfold nodeIdx
    rw [e]
    have hidx : k - 1 - (k - 1 - j - 1) = j + 1 := by omega
    rw [hidx, blockStart_succ_baseAux hn, cnt_top v k hn hne]
    have hlvl : level v (k - 1 - j) = reduceLevel (level v (k - 1 - j - 1)) := by
      rw [← level_succ]
      congr 1
      omega
    have hrank : (((level v (k - 1 - j)).flat.take
          (encode (level v (k - 1 - j)).n x y z)).countP (fun o => o != 0))
        = chunkRank v (k - 1 - j - 1) x y z := by
      unfold chunkRank
      conv_lhs => rw [hlvl]
      rw [reduce_flat_take_countP]
      rfl
    rw [← hrank]

theorem mutated_chunk_eq_expected {v : Grid} {k : ℕ} (hn : v.n = 2 ^ k) (hk : 1 ≤ k)
    (hov : 13 + totalPtrs v < 4294967296) (hne : 0 < cnt v 0) {j a b c : ℕ}
    (hj : j < k - 1) (ha : a < 2 ^ j) (hb : b < 2 ^ j) (hc : c < 2 ^ j) :
    chunkAt (mutatedLevel v j) a b c = (expectedNode v (k - 1 - j) a b c).octants := by
  have hp2 : (2:ℕ) ^ (j + 1) = 2 ^ j * 2 := pow_succ 2 j
  have h0 := mutated_cell_eq_slotVal hn hk hov hne hj
    (x := 2*a) (y := 2*b) (z := 2*c) (by omega) (by omega) (by omega)
  have h1 := mutated_cell_eq_slotVal hn hk hov hne hj
    (x := 2*a) (y := 2*b) (z := 2*c+1) (by omega) (by omega) (by omega)
  have h2 := mutated_cell_eq_slotVal hn hk hov hne hj
    (x := 2*a) (y := 2*b+1) (z := 2*c) (by omega) (by omega) (by omega)
  have h3 := mutated_cell_eq_slotVal hn hk hov hne hj
    (x := 2*a) (y := 2*b+1) (z := 2*c+1) (by omega) (by omega) (by omega)
  have h4 := mutated_cell_eq_slotVal hn hk hov hne hj
    (x := 2*a+1) (y := 2*b) (z := 2*c) (by omega) (by omega) (by omega)
  have h5 := mutated_cell_eq_slotVal hn hk hov hne hj
    (x := 2*a+1) (y := 2*b) (z := 2*c+1) (by omega) (by omega) (by omega)
  have h6 := mutated_cell_eq_slotVal hn hk hov hne hj
    (x := 2*a+1) (y := 2*b+1) (z := 2*c) (by omega) (by omega) (by omega)
  have h7 := mutated_cell_eq_slotVal hn hk hov hne hj
    (x := 2*a+1) (y := 2*b+1) (z := 2*c+1) (by omega) (by omega) (by omega)
  unfold chunkAt expectedNode
  rw [h0, h1, h2, h3, h4, h5, h6, h7]

theorem leaf_chunk_eq_expected (v : Grid) (a b c : ℕ) :
    chunkAt v a b c = (expectedNode v 0 a b c).octants := by
  unfold chunkAt expectedNode
  simp only [slotVal_zero_level]

/-! ## The main node-placement theorem -/

/-- Pointer correctness of the emitted array (working form, from which the
claim-level statements below are instantiated).  For a volume of side `2^k`
(`k ≥ 1`, at least one occupied voxel, pointer counter below `2^32`): the
record emitted for an occupied `2×2×2` chunk `(a,b,c)` of level `i` sits at
index `nodeIdx v i a b c` (which is at least 13 and within the array), and
its 8 slots are given by `expectedNode`. -/
theorem node_spec_aux (v : Grid) (k : ℕ) (hn : v.n = 2 ^ k) (hk : 1 ≤ k)
    (hov : 13 + totalPtrs v < 4294967296) (hne : 0 < cnt v 0) :
    ∀ i a b c, i < k → a < 2 ^ (k - 1 - i) → b < 2 ^ (k - 1 - i) →
      c < 2 ^ (k - 1 - i) →
      chunkOcc (chunkAt (level v i) a b c) = true →
      13 ≤ nodeIdx v i a b c ∧
      nodeIdx v i a b c < (buildSvo v).length ∧
      (buildSvo v).getD (nodeIdx v i a b c) default = expectedNode v i a b c := by
  intro i a b c hi ha hb hc hocc
  have e : ilog2 v.n = k := ilog2_n hn
  have hii : k - 1 - (k - 1 - i) = i := by omega
  have hjk : k - 1 - i < k := by omega
  have hocc' : chunkOcc (chunkAt (level v (k - 1 - (k - 1 - i))) a b c) = true := by
    rw [hii]
    exact hocc
  obtain ⟨hr1, hr2⟩ := block_node_eq hn hk hov hjk ha hb hc hocc'
  rw [hii] at hr1 hr2
  have hkj : k - (k - 1 - i) = i + 1 := by omega
  rw [hkj] at hr1
  have hnodeIdx : nodeIdx v i a b c
      = blockStart v (k - 1 - i) + chunkRank v i a b c := by
    unfold nodeIdx
    rw [e]
  have hC : chunkAt ((svoGrids v).getD (k - 1 - i) default) a b c
      = (expectedNode v i a b c).octants := by
    rcases Nat.eq_zero_or_pos i with rfl | hipos
    · rw [show k - 1 - 0 = k - 1 by omega, svoGrids_getD_last hn hk]
      exact leaf_chunk_eq_expected v a b c
    · have hjlt : k - 1 - i < k - 1 := by omega
      rw [svoGrids_getD_lt hn hk hov hjlt]
      have := mutated_chunk_eq_expected hn hk hov hne hjlt ha hb hc
      rw [hii] at this
      exact this
  have hgetD : (buildSvo v).getD (nodeIdx v i a b c) default
      = expectedNode v i a b c := by
    rw [hnodeIdx, buildSvo_getD_block hn hk hov hjk (by rw [hkj]; exact hr1), hr2, hC]
  refine ⟨?_, ?_, hgetD⟩
  · rw [hnodeIdx, ← blockStart_zero v]
    calc blockStart v 0 ≤ blockStart v (k - 1 - i) := blockStart_mono v 0 _ (by omega)
    _ ≤ blockStart v (k - 1 - i) + chunkRank v i a b c := Nat.le_add_right _ _
  · rw [hnodeIdx, buildSvo_length_eq hn hk hov]
    have hS : blockStart v (k - 1 - i) + cnt v (i + 1)
        = blockStart v (k - 1 - i + 1) := by
      rw [blockStart_succ, e, show k - (k - 1 - i) = i + 1 by omega]
    have hmono := blockStart_mono v (k - 1 - i + 1) k (by omega)
    omega

/-! ## Claim C1 -/

/-- C1 counterexample.  The claim says *every* slot of *every* node in the
returned array is either `0` or an index into that array.  False: leaf
records hold the raw material values of the voxels (voxels.rs:227-236 copies
the — unmutated — finest level's cells straight into the octants), so a
volume whose single voxel has material `100` produces a 14-node array whose
root record contains the slot value `100`, which is not an index into the
array under either 0-based or 1-based indexing. -/
theorem buildSvo_slots_not_indices :
    ¬ (∀ nd ∈ buildSvo big2, ∀ s ∈ nd.octants,
        s = 0 ∨ s ≤ (buildSvo big2).length) := by decide

/-- C1 (amended) — pointer correctness of the emitted array.  For a volume
of side `2^k` (`k ≥ 1`, at least one occupied voxel, pointer counter below
`2^32`): the record emitted for an occupied `2×2×2` chunk `(a,b,c)` of level
`i` sits at array index `nodeIdx v i a b c` (at least 13, within the
array), and its 8 slots (`expectedNode`) are: `0` exactly for unoccupied
child cells; for `i ≥ 1` a nonzero slot is the **0-based** array index of
the record of the corresponding occupied child chunk one level finer
(`nodeIdx v (i-1) …`), never `0` since at least 13; for `i = 0` (leaf
records) the slots hold the raw material values of the 8 voxels, not node
indices. -/
theorem buildSvo_node_spec (v : Grid) (k : ℕ) (hn : v.n = 2 ^ k) (hk : 1 ≤ k)
    (hov : 13 + totalPtrs v < 4294967296) (hne : 0 < cnt v 0) :
    ∀ i a b c, i < k → a < 2 ^ (k - 1 - i) → b < 2 ^ (k - 1 - i) →
      c < 2 ^ (k - 1 - i) →
      chunkOcc (chunkAt (level v i) a b c) = true →
      13 ≤ nodeIdx v i a b c ∧
      nodeIdx v i a b c < (buildSvo v).length ∧
      (buildSvo v).getD (nodeIdx v i a b c) default = expectedNode v i a b c :=
  node_spec_aux v k hn hk hov hne

theorem buildSvo_node_spec_witness :
    13 ≤ nodeIdx one4 1 0 0 0 ∧ nodeIdx one4 1 0 0 0 < (buildSvo one4).length ∧
    (buildSvo one4).getD (nodeIdx one4 1 0 0 0) default
      = expectedNode one4 1 0 0 0 :=
  buildSvo_node_spec one4 2 (by decide) (by decide) (by decide) (by decide)
    1 0 0 0 (by decide) (by decide) (by decide) (by decide) (by decide)

/-! ## Claim C10 -/

/-- C10 — the array returned by `build_svo` begins with the 13 fixed
placeholder nodes (the `i`-th has all 8 slots `i + 1`); for a nonempty
power-of-two volume the root record of the actual hierarchy sits at array
index 13, and every pointer written into a level by the pointer-compaction
pass is at least 14 (pointers point past the root). -/
theorem buildSvo_placeholders_root_ptrs (v : Grid) (k : ℕ) (hn : v.n = 2 ^ k)
    (hk : 1 ≤ k) (hov : 13 + totalPtrs v < 4294967296) (hne : 0 < cnt v 0) :
    (buildSvo v).take 13 = placeholders ∧
    (∀ idx, idx < 13 →
      (buildSvo v).getD idx default = ⟨List.replicate 8 (idx + 1)⟩) ∧
    nodeIdx v (k - 1) 0 0 0 = 13 ∧
    (buildSvo v).getD 13 default = expectedNode v (k - 1) 0 0 0 ∧
    (∀ j x y z, j < k - 1 → x < 2 ^ (j + 1) → y < 2 ^ (j + 1) →
      z < 2 ^ (j + 1) →
      (mutatedLevel v j).f x y z = 0 ∨ 14 ≤ (mutatedLevel v j).f x y z) := by
  have hs2 : (level v (k - 1)).n = 2 := by
    rw [level_n_pow hn (by omega), show k - (k - 1) = 1 by omega, pow_one]
  have hlen1 : (level v (k - 1)).chunks.length = 1 := by
    rw [Grid.chunks_length, hs2]
  have hkk : k - 1 + 1 = k := by omega
  have hpos : 0 < cnt v k := cnt_pos_all hn hne k le_rfl
  rw [← hkk, cnt_succ] at hpos
  obtain ⟨ch, hmem, hchocc⟩ := List.countP_pos_iff.mp hpos
  obtain ⟨b, hb⟩ := List.length_eq_one.mp hlen1
  have hcb : ch = b := by
    rw [hb] at hmem
    simpa using hmem
  have hgd : (level v (k - 1)).chunks.getD
      (encode ((level v (k - 1)).n / 2) 0 0 0) []
      = chunkAt (level v (k - 1)) 0 0 0 :=
    Grid.chunks_getD _ [] (by omega) (by omega) (by omega)
  have henc0 : encode ((level v (k - 1)).n / 2) 0 0 0 = 0 := by simp [encode]
  have hrocc : chunkOcc (chunkAt (level v (k - 1)) 0 0 0) = true := by
    rw [← hgd, henc0, hb]
    show chunkOcc b = true
    rw [← hcb]
    exact hchocc
  have hcr0 : chunkRank v (k - 1) 0 0 0 = 0 := by
    unfold chunkRank
    simp [encode]
  have hni : nodeIdx v (k - 1) 0 0 0 = 13 := by
    unfold nodeIdx
    rw [ilog2_n hn, show k - 1 - (k - 1) = 0 by omega, blockStart_zero, hcr0]
  have hroot := node_spec_aux v k hn hk hov hne (k - 1) 0 0 0 (by omega)
    (pow_pos (by omega) _) (pow_pos (by omega) _) (pow_pos (by omega) _) hrocc
  refine ⟨?_, ?_, hni, ?_, ?_⟩
  · rw [buildSvo_eq, ← placeholders_length, List.take_left]
  · intro idx hidx
    rw [buildSvo_eq, List.getD_append _ _ _ idx
      (by rw [placeholders_length]; exact hidx)]
    unfold placeholders
    rw [getD_map_range _ _ _ _ (by omega)]
  · rw [← hni]
    exact hroot.2.2
  · intro j x y z hj hx hy hz
    rw [mutated_cell_eq_slotVal hn hk hov hne hj hx hy hz]
    unfold slotVal
    by_cases h : (level v (k - 1 - j)).f x y z = 0
    · rw [if_pos h]
      left
      rfl
    · rw [if_neg h, if_neg (show ¬ (k - 1 - j) = 0 by omega)]
      right
      unfold nodeIdx
      rw [ilog2_n hn, show k - 1 - (k - 1 - j - 1) = j + 1 by omega,
        blockStart_succ_baseAux hn, cnt_top v k hn hne]
      have := baseAux_ge v j
      omega

theorem buildSvo_placeholders_root_ptrs_witness :
    (buildSvo one4).take 13 = placeholders ∧
    nodeIdx one4 1 0 0 0 = 13 ∧
    (buildSvo one4).getD 13 default = expectedNode one4 1 0 0 0 ∧
    ((mutatedLevel one4 0).f 0 0 0 = 0 ∨ 14 ≤ (mutatedLevel one4 0).f 0 0 0) := by
  obtain ⟨h1, _, h3, h4, h5⟩ := buildSvo_placeholders_root_ptrs one4 2
    (by decide) (by decide) (by decide) (by decide)
  exact ⟨h1, h3, h4, h5 0 0 0 0 (by decide) (by decide) (by decide) (by decide)⟩

/-! ## Claim C4 -/

/-- C4 counterexample.  The claim bounds the number of emitted nodes by the
number of occupied leaf voxels.  False: every occupied voxel contributes one
occupied chunk *per level*, so a 4³ volume with a single occupied voxel
emits 2 hierarchy nodes (root + leaf record) — more than its 1 occupied
leaf voxel. -/
theorem buildSvo_count_not_leaf_bounded :
    ¬ ((buildSvo one4).length - 13 ≤ cnt one4 0) := by decide

/-- C4 (amended) — sparse compaction.  Every node emitted after the 13
placeholders has at least one nonzero slot (the emission pass filters out
all-empty `2×2×2` chunks, voxels.rs:224), and the total array length is at
most `13 + k * (number of occupied leaf voxels)` for a volume of side `2^k`:
each of the `k` levels emits at most `cnt v 0` nodes, so the size scales
with the occupied-leaf count times the depth, not with `dim³`. -/
theorem buildSvo_sparse (v : Grid) (k : ℕ) (hn : v.n = 2 ^ k) (hk : 1 ≤ k)
    (hov : 13 + totalPtrs v < 4294967296) :
    (∀ nd ∈ (buildSvo v).drop 13, nd.octants.any (fun o => o != 0) = true) ∧
    (buildSvo v).length ≤ 13 + k * cnt v 0 := by
  constructor
  · intro nd hnd
    rw [buildSvo_eq, ← placeholders_length, List.drop_left] at hnd
    obtain ⟨g, _, hmem⟩ := List.mem_flatMap.mp hnd
    unfold nodesOfLevel at hmem
    obtain ⟨c, hc, hrfl⟩ := List.mem_map.mp hmem
    have hocc := (List.mem_filter.mp hc).2
    rw [← hrfl]
    exact hocc
  · rw [buildSvo_length_eq hn hk hov]
    unfold blockStart
    rw [ilog2_n hn, listSum_range_eq]
    have hb : ∀ t ∈ Finset.range k, cnt v (k - t) ≤ cnt v 0 :=
      fun t _ => cnt_le_cnt_zero hn (k - t) (by omega)
    have hsum := Finset.sum_le_sum hb
    rw [Finset.sum_const, Finset.card_range, smul_eq_mul] at hsum
    omega

theorem buildSvo_sparse_witness :
    ((buildSvo one4).getD 13 default).octants.any (fun o => o != 0) = true ∧
    (buildSvo one4).length ≤ 13 + 2 * cnt one4 0 := by
  obtain ⟨h1, h2⟩ := buildSvo_sparse one4 2 (by decide) (by decide) (by decide)
  exact ⟨h1 _ (by decide), h2⟩

end Wender
